import Mathlib

/-!
Verification of the C++ quick-fix / refactoring engine of this repository
(cppquickfixes.cpp and the ChangeSet edit model described in the spec).

The definitions below are a shallow embedding of the matching rules:
syntax-tree nodes become explicit data carrying exactly the fields the
matchers inspect, external semantic services (type resolution, case-label
lookup, local-use maps) become explicit inputs, and each rule's `doMatch`
becomes a total function from a match context to the list of operations it
proposes.
-/

namespace QuickFix

/-! ## Numeric literal printing and parsing

Models of the C library functions used by ConvertNumericLiteral::doMatch:
`QString::asprintf` with `%lX`/`%lo`/`%lu`, `QString::toULong`, and
`std::bitset<64>::to_string`.  `unsigned long` is 64 bits wide on the
targets this code runs on, so overflow past `2^64` makes a parse invalid. -/

def ulongSize : Nat := 2 ^ 64

/-- Digit characters as produced by printf-style integer conversion;
`%lX` uses uppercase letters. -/
def hexDigitChar (d : Nat) : Char :=
  if d < 10 then Char.ofNat (48 + d) else Char.ofNat (55 + d)

/-- Numeric value of a digit character as accepted by the strtoul-style
parser behind `QString::toULong`. -/
def digitVal? (c : Char) : Option Nat :=
  if 48 ≤ c.toNat ∧ c.toNat ≤ 57 then some (c.toNat - 48)
  else if 97 ≤ c.toNat ∧ c.toNat ≤ 102 then some (c.toNat - 87)
  else if 65 ≤ c.toNat ∧ c.toNat ≤ 70 then some (c.toNat - 55)
  else none

/-- Accumulating digit parser: every character must be a digit of base `b`. -/
def parseDigitsAux (b : Nat) : Nat → List Char → Option Nat
  | acc, [] => some acc
  | acc, c :: rest =>
    match digitVal? c with
    | some d => if d < b then parseDigitsAux b (acc * b + d) rest else none
    | none => none

/-- Models `QString::toULong(&ok, base)` with an explicit base on the
suffix-stripped spelling of an integer literal: the string must be nonempty,
all characters must be digits of the base, and overflow is invalid. -/
def toULongDigits (b : Nat) (cs : List Char) : Option Nat :=
  if cs.isEmpty then none
  else
    match parseDigitsAux b 0 cs with
    | some v => if v < ulongSize then some v else none
    | none => none

/-- Models `QString::toULong(&ok, 0)` (the C `strtoul` base-detection
convention) on the suffix-stripped spelling of an integer literal: a
`0x`/`0X` prefix selects base 16, any other leading `0` selects base 8, and
everything else is decimal. -/
def toULongBase0 (cs : List Char) : Option Nat :=
  match cs with
  | [] => none
  | c :: rest =>
    if c = '0' then
      match rest with
      | [] => some 0
      | c2 :: rest2 =>
        if c2 = 'x' ∨ c2 = 'X' then toULongDigits 16 rest2
        else toULongDigits 8 rest
    else toULongDigits 10 (c :: rest)

/-- Little-endian digit characters of `n` in base `b`; the fuel only bounds
the number of divisions. -/
def natDigitsRevAux (b : Nat) : Nat → Nat → List Char
  | 0, _ => []
  | fuel + 1, n =>
    if n = 0 then [] else hexDigitChar (n % b) :: natDigitsRevAux b fuel (n / b)

/-- Digit string of `n` in base `b`, most significant digit first, as
produced by printf-style integer conversion (`0` prints as `"0"`). -/
def natDigitsStr (b n : Nat) : List Char :=
  if n = 0 then ['0'] else (natDigitsRevAux b n n).reverse

/-- Models `std::bitset<64>(v).to_string()`: the 64-character binary
representation of `v`, most significant bit first, zero padded. -/
def bitString64 (v : Nat) : List Char :=
  List.replicate (64 - (natDigitsStr 2 v).length) '0' ++ natDigitsStr 2 v

/-! ## Match-context data model

A `CNode` is a syntax-tree node carrying exactly the data the matchers
inspect.  The `path` of a match context is the list of ancestor nodes from
the root to the node under the cursor, as produced by ASTPath.  Results of
the external semantic services (type resolution for a switch condition, the
case-label name lookup of CaseStatementCollector) appear as data on the
node, since the core only consumes their answers. -/

/-- Token kind constants of the C++ lexer; only their distinctness and
nonzero-ness matter here. -/
def T_AMPER_AMPER : Nat := 28

def T_PIPE_PIPE : Nat := 35

inductive Specifier where
  | enumSpec
  | classSpec
  | otherSpec
deriving DecidableEq

/-- Fields of a SimpleDeclarationAST consumed by SplitSimpleDeclaration:
presence of the semicolon token, the declaration specifiers, the number of
declarators, and whether the text cursor lies in the specifier range. -/
structure SimpleDeclData where
  hasSemicolon : Bool
  specifiers : List Specifier
  declaratorCount : Nat
  cursorOnSpecifiers : Bool
deriving DecidableEq

/-- Fields of a SwitchStatementAST consumed by CompleteSwitchCaseStatement.
`statement = some b` means the switch has a body and `b` says whether it is
a compound statement.  `condEnum` is the answer of the external type
resolution (`conditionEnum`): the enum's member names in declaration order,
or none when the condition's type is not an enum.  `usedValues` is the
answer of CaseStatementCollector: the resolved names of the existing case
labels. -/
structure SwitchData where
  statement : Option Bool
  hasSymbol : Bool
  condEnum : Option (List String)
  usedValues : List String
deriving DecidableEq

/-- The numeric-literal token data consumed by ConvertNumericLiteral:
the lexer's classification flags and the spelling. -/
structure TokenData where
  isNumericLiteral : Bool
  isDouble : Bool
  isFloat : Bool
  isHex : Bool
  spell : List Char
deriving DecidableEq

/-- Fields of a FunctionDefinitionAST's declarator consumed by
ExtractLiteralAsParameter. -/
structure FuncDefData where
  hasPostfixDeclaratorList : Bool
  firstPostfixIsFunctionDeclarator : Bool
  hasEllipsis : Bool
deriving DecidableEq

inductive CNode where
  | ifStmt (hasStatement hasElse : Bool)
  | binExpr (opKind : Nat) (cursorOnOp : Bool)
  | switchStmt (d : SwitchData)
  | coreDecl (cursorOn : Bool)
  | simpleDecl (d : SimpleDeclData)
  | numericLit (tok : TokenData)
  | stringLit
  | boolLit
  | lambdaExpr
  | funcDef (d : FuncDefData)
  | other
deriving DecidableEq

def CNode.asBinExpr : CNode → Option (Nat × Bool)
  | .binExpr k c => some (k, c)
  | _ => none

/-- Pairs each node with its index in the path. -/
def enumIdx (i : Nat) : List CNode → List (Nat × CNode)
  | [] => []
  | n :: rest => (i, n) :: enumIdx (i + 1) rest

/-! ## SplitIfStatement::doMatch -/

structure SplitIfStatementOp where
  priority : Nat
deriving DecidableEq

/-- Index and fields of the last (deepest) if-statement of the path, as
found by the downward search loop of SplitIfStatement::doMatch. -/
def lastIfIndex : List CNode → Option (Nat × Bool × Bool)
  | [] => none
  | n :: rest =>
    match lastIfIndex rest with
    | some (i, s, e) => some (i + 1, s, e)
    | none =>
      match n with
      | .ifStmt s e => some (0, s, e)
      | _ => none

/-- The upward walk over the condition chain: every node must be a binary
expression, the operator kinds must not mix, `&&` is rejected when the
if-statement has an else branch, and an operation is emitted at the node
whose operator token is under the cursor. -/
def splitIfLoop (hasElse : Bool) (splitKind idx : Nat) :
    List CNode → List SplitIfStatementOp
  | [] => []
  | node :: rest =>
    match node.asBinExpr with
    | none => []
    | some (k, cursorOn) =>
      if splitKind = 0 then
        if ¬(k = T_AMPER_AMPER ∨ k = T_PIPE_PIPE) then []
        else if k = T_AMPER_AMPER ∧ hasElse then []
        else if cursorOn then [⟨idx⟩]
        else splitIfLoop hasElse k (idx + 1) rest
      else
        if splitKind ≠ k then []
        else if cursorOn then [⟨idx⟩]
        else splitIfLoop hasElse splitKind (idx + 1) rest

def SplitIfStatement.doMatch (path : List CNode) : List SplitIfStatementOp :=
  match lastIfIndex path with
  | none => []
  | some (i, hasStmt, hasElse) =>
    if hasStmt then splitIfLoop hasElse 0 (i + 1) (path.drop (i + 1)) else []

/-! ## SplitSimpleDeclaration::doMatch -/

structure SplitSimpleDeclarationOp where
  priority : Nat
deriving DecidableEq

def checkDeclarationForSplit (d : SimpleDeclData) : Bool :=
  d.hasSemicolon
    && !d.specifiers.isEmpty
    && d.specifiers.all (fun s =>
         match s with
         | .enumSpec => false
         | .classSpec => false
         | .otherSpec => true)
    && decide (2 ≤ d.declaratorCount)

/-- The upward walk of SplitSimpleDeclaration::doMatch over (index, node)
pairs listed leaf first; `coreCursor` remembers whether a core declarator
was seen below and whether the cursor is on it. -/
def splitDeclLoop (coreCursor : Option Bool) :
    List (Nat × CNode) → List SplitSimpleDeclarationOp
  | [] => []
  | (idx, n) :: rest =>
    match n with
    | .coreDecl cursorOn => splitDeclLoop (some cursorOn) rest
    | .simpleDecl d =>
      if checkDeclarationForSplit d then
        if d.cursorOnSpecifiers then [⟨idx⟩]
        else if coreCursor = some true then [⟨idx⟩]
        else []
      else []
    | _ => splitDeclLoop coreCursor rest

def SplitSimpleDeclaration.doMatch (path : List CNode) :
    List SplitSimpleDeclarationOp :=
  splitDeclLoop none (enumIdx 0 path).reverse

/-! ## CompleteSwitchCaseStatement::doMatch -/

structure CompleteSwitchCaseStatementOp where
  priority : Nat
  values : List String
deriving DecidableEq

/-- `QList::removeAll`: removes every element equal to `v`. -/
def removeAllQ (xs : List String) (v : String) : List String :=
  xs.filter (fun x => x ≠ v)

/-- The text inserted after the opening brace by
CompleteSwitchCaseStatementOp::perform. -/
def switchInsertion (values : List String) : String :=
  "\ncase " ++ String.intercalate ":\nbreak;\ncase " values ++ ":\nbreak;"

/-- The downward search for the deepest switch statement, over (index, node)
pairs listed leaf first; at the first switch found, guards are checked, the
enum members are looked up, the used values are subtracted, and one
operation is emitted when any member is missing. -/
def completeSwitchLoop : List (Nat × CNode) → List CompleteSwitchCaseStatementOp
  | [] => []
  | (depth, n) :: rest =>
    match n with
    | .switchStmt d =>
      match d.statement with
      | none => []
      | some isCompound =>
        if ¬d.hasSymbol then []
        else if ¬isCompound then []
        else
          match d.condEnum with
          | some members =>
            let values := d.usedValues.foldl removeAllQ members
            if values.isEmpty then [] else [⟨depth, values⟩]
          | none => []
    | _ => completeSwitchLoop rest

def CompleteSwitchCaseStatement.doMatch (path : List CNode) :
    List CompleteSwitchCaseStatementOp :=
  completeSwitchLoop (enumIdx 0 path).reverse

/-! ## ConvertNumericLiteral::doMatch -/

inductive ConvKind where
  | toHex
  | toOctal
  | toDecimal
  | toBinary
deriving DecidableEq

/-- A ConvertNumericLiteralOp: replace the buffer range
`[start, stop)` with `replacement`. -/
structure ConvertNumericLiteralOp where
  priority : Nat
  start : Nat
  stop : Nat
  replacement : List Char
  kind : ConvKind
deriving DecidableEq

/-- `std::isxdigit`. -/
def isXDigit (c : Char) : Bool :=
  (48 ≤ c.toNat && c.toNat ≤ 57)
    || (97 ≤ c.toNat && c.toNat ≤ 102)
    || (65 ≤ c.toNat && c.toNat ≤ 70)

/-- The suffix-stripping loop of ConvertNumericLiteral::doMatch: length of
the spelling after the trailing non-hex-digit characters (type suffixes
such as u/U/l/L/ll) are dropped. -/
def numberLength (spell : List Char) : Nat :=
  (spell.reverse.dropWhile (fun c => !isXDigit c)).length

/-- `QString::startsWith("0b", Qt::CaseInsensitive)`. -/
def startsWith0b (cs : List Char) : Bool :=
  match cs with
  | c :: c2 :: _ => c == '0' && (c2 == 'b' || c2 == 'B')
  | _ => false

/-- The `isBinary` computation of ConvertNumericLiteral::doMatch:
`numberLength > 2 && str[0] == '0' && (str[1] == 'b' || str[1] == 'B')`. -/
def spellingIsBinary (spell : List Char) : Bool :=
  decide (2 < numberLength spell) && (spell.getD 0 ' ' == '0')
    && (spell.getD 1 ' ' == 'b' || spell.getD 1 ' ' == 'B')

/-- The `isOctal` computation of ConvertNumericLiteral::doMatch:
`numberLength >= 2 && str[0] == '0' && str[1] >= '0' && str[1] <= '7'`. -/
def spellingIsOctal (spell : List Char) : Bool :=
  decide (2 ≤ numberLength spell) && (spell.getD 0 ' ' == '0')
    && decide ('0' ≤ spell.getD 1 ' ') && decide (spell.getD 1 ' ' ≤ '7')

/-- The value computation of ConvertNumericLiteral::doMatch on the
suffix-stripped literal text: binary literals drop the `0b` prefix and
parse base 2, everything else parses with base auto-detection. -/
def literalValue (x : List Char) : Option Nat :=
  if startsWith0b x then toULongDigits 2 (x.drop 2) else toULongBase0 x

/-- `QString::asprintf("0x%lX", value)`. -/
def hexReplacement (v : Nat) : List Char :=
  '0' :: 'x' :: natDigitsStr 16 v

/-- `QString::asprintf("0%lo", value)`. -/
def octalReplacement (v : Nat) : List Char :=
  '0' :: natDigitsStr 8 v

/-- `QString::asprintf("%lu", value)`. -/
def decimalReplacement (v : Nat) : List Char :=
  natDigitsStr 10 v

/-- `"0b"`, then the 64-bit bitset string with its leading zeros removed
(the `^[0]*` regular expression), except that value `0` renders as `0b0`. -/
def binaryReplacement (v : Nat) : List Char :=
  '0' :: 'b' ::
    (if v = 0 then ['0'] else (bitString64 v).dropWhile (fun c => c == '0'))

def ConvertNumericLiteral.doMatch (path : List CNode) (litStart : Nat) :
    List ConvertNumericLiteralOp :=
  match path.getLast? with
  | none => []
  | some node =>
    match node with
    | .numericLit tok =>
      if ¬tok.isNumericLiteral then []
      else if tok.isDouble || tok.isFloat then []
      else
        let spell := tok.spell
        let len := numberLength spell
        if len < 1 then []
        else
          let x := spell.take len
          match literalValue x with
          | none => []
          | some value =>
            let priority := path.length - 1
            let isBinary := spellingIsBinary spell
            let isOctal := spellingIsOctal spell
            let isDecimal := !(isBinary || isOctal || tok.isHex)
            (if !tok.isHex then
              [⟨priority, litStart, litStart + len, hexReplacement value, .toHex⟩]
             else [])
            ++ (if !isOctal then
              [⟨priority, litStart, litStart + len, octalReplacement value, .toOctal⟩]
             else [])
            ++ (if !isDecimal then
              [⟨priority, litStart, litStart + len, decimalReplacement value, .toDecimal⟩]
             else [])
            ++ (if !isBinary then
              [⟨priority, litStart, litStart + len, binaryReplacement value, .toBinary⟩]
             else [])
    | _ => []

/-! ## AddBracesToControlStatement (if-statement case)

checkControlStatementsHelper<IfStatementAST>: an if-chain is the head
if-statement, its else-if links, and an optional trailing else statement. -/

structure AddBracesOp where
  priority : Nat
deriving DecidableEq

inductive ElseBranch where
  | noElse
  | elseIf (hasBody bodyCompound : Bool) (els : ElseBranch)
  | elseOther (isCompound : Bool)
deriving DecidableEq

structure IfChain where
  hasBody : Bool
  bodyCompound : Bool
  els : ElseBranch
deriving DecidableEq

/-- The else-chain walk: counts the else-if statements whose bodies are
single non-compound statements, and reports the compound-ness of the
trailing else statement (none when the chain ends without one). -/
def walkElseChain : ElseBranch → Nat × Option Bool
  | .noElse => (0, none)
  | .elseIf hasBody bodyCompound els =>
    let (cnt, t) := walkElseChain els
    ((if hasBody && !bodyCompound then cnt + 1 else cnt), t)
  | .elseOther isCompound => (0, some isCompound)

/-- checkControlStatementsHelper<IfStatementAST>: collects the head (when
the cursor is on the `if` token and the body is a single non-compound
statement) and the wrap-needing else-ifs; a trailing else that is already a
compound statement is cleared; one operation (priority 0) is emitted when
anything needs wrapping. -/
def checkControlStatementsHelperIf (cursorOnIfToken : Bool) (c : IfChain) :
    List AddBracesOp :=
  let headCount := if cursorOnIfToken && c.hasBody && !c.bodyCompound then 1 else 0
  let (chainCount, trailing) := walkElseChain c.els
  let elseNeedsWrap :=
    match trailing with
    | some isCompound => !isCompound
    | none => false
  if (headCount + chainCount != 0) || elseNeedsWrap then [⟨0⟩] else []

/-- The else chain needs no wrapping: every else-if body is already a
compound statement (or absent) and a trailing else, if any, is compound. -/
def ElseBranch.needsNoWrap : ElseBranch → Bool
  | .noElse => true
  | .elseIf hasBody bodyCompound els => (!hasBody || bodyCompound) && els.needsNoWrap
  | .elseOther isCompound => isCompound

/-! ## ExtractLiteralAsParameter::doMatch -/

structure ExtractLiteralAsParameterOp where
  priority : Nat
deriving DecidableEq

def CNode.isLiteralNode : CNode → Bool
  | .numericLit _ => true
  | .stringLit => true
  | .boolLit => true
  | _ => false

/-- The upward search for the enclosing function definition, starting at
index path.count - 2; a lambda expression on the way aborts the match. -/
def findEnclosingFunction : List (Nat × CNode) → Option FuncDefData
  | [] => none
  | (_, n) :: rest =>
    match n with
    | .funcDef d => some d
    | .lambdaExpr => none
    | _ => findEnclosingFunction rest

def ExtractLiteralAsParameter.doMatch (path : List CNode) :
    List ExtractLiteralAsParameterOp :=
  if path.length < 2 then []
  else
    match path.getLast? with
    | none => []
    | some lastAst =>
      if ¬lastAst.isLiteralNode then []
      else
        match findEnclosingFunction ((enumIdx 0 path).reverse.drop 1) with
        | none => []
        | some f =>
          if ¬f.hasPostfixDeclaratorList then []
          else if f.firstPostfixIsFunctionDeclarator && f.hasEllipsis then []
          else [⟨path.length - 1⟩]

/-! ## ExtractFunction

The statement tree of the reference function's body, annotated with the
character offsets `file->startOf`/`file->endOf` of every statement; the
(name, declaration-text) pairs that assembleDeclarationData extracts from a
declaration statement appear as data on the `declS` node, since the
assembly consists of buffer-text and pretty-printing queries answered by
external services. -/

inductive Stmt where
  | compound (s e : Nat) (children : List Stmt)
  | caseS (s e : Nat) (body : Option Stmt)
  | doS (s e : Nat) (body : Option Stmt)
  | forS (s e : Nat) (ini body : Option Stmt)
  | ifS (s e : Nat) (body els : Option Stmt)
  | whileS (s e : Nat) (body : Option Stmt)
  | declS (s e : Nat) (entries : List (String × String))
  | retS (s e : Nat)
  | exprS (s e : Nat)

def Stmt.startOf : Stmt → Nat
  | .compound s _ _ => s
  | .caseS s _ _ => s
  | .doS s _ _ => s
  | .forS s _ _ _ => s
  | .ifS s _ _ _ => s
  | .whileS s _ _ => s
  | .declS s _ _ => s
  | .retS s _ => s
  | .exprS s _ => s

def Stmt.endOf : Stmt → Nat
  | .compound _ e _ => e
  | .caseS _ e _ => e
  | .doS _ e _ => e
  | .forS _ e _ _ => e
  | .ifS _ e _ _ => e
  | .whileS _ e _ => e
  | .declS _ e _ => e
  | .retS _ e => e
  | .exprS _ e => e

/-- The mutable state of FunctionExtractionAnalyser.  `extractionStart` and
`extractionEnd` are ints initialized to 0; the source tests them for
truthiness, so 0 doubles as "unset", which is modelled faithfully. -/
structure AnalyserState where
  done : Bool
  failed : Bool
  extractionStart : Nat
  extractionEnd : Nat
  knownDecls : List (String × String)
deriving DecidableEq

/-- `QHash::insert`: replaces any previous value of the key. -/
def insertDecl (m : List (String × String)) (k v : String) :
    List (String × String) :=
  (k, v) :: m.filter (fun p => p.1 != k)

/-- `QHash::contains`/`value` combined. -/
def lookupDecl (m : List (String × String)) (k : String) : Option String :=
  (m.find? (fun p => p.1 == k)).map Prod.snd

/-- The entry bookkeeping of FunctionExtractionAnalyser::statement on a
non-null statement with offsets `[s, e)`: done-gate (preVisit), the
done-check against the selection, and the extraction-bound updates.  The
boolean says whether the traversal descends into the statement (the
`accept` call). -/
def analyserEnter (selStart selEnd s e : Nat) (st : AnalyserState) :
    AnalyserState × Bool :=
  if st.done then (st, false)
  else if s ≥ selEnd ∨ (st.extractionStart ≠ 0 ∧ e > selEnd) then
    ({ st with done := true }, false)
  else
    let st1 :=
      if s ≥ selStart ∧ st.extractionStart = 0 then
        { st with extractionStart := s }
      else st
    let st2 :=
      if e > st1.extractionEnd ∧ st1.extractionStart ≠ 0 then
        { st1 with extractionEnd := e }
      else st1
    (st2, true)

mutual

/-- FunctionExtractionAnalyser::statement on a non-null statement: the
entry bookkeeping, then the recursive visit of the statement.  (A null
statement argument returns immediately; the callers match on the
option.) -/
def analyserStatement (selStart selEnd : Nat) (st : AnalyserState)
    (stmt : Stmt) : AnalyserState :=
  match analyserEnter selStart selEnd stmt.startOf stmt.endOf st with
  | (st2, false) => st2
  | (st2, true) => analyserVisit selStart selEnd st2 stmt
termination_by (sizeOf stmt, 1)

/-- The visit overrides of FunctionExtractionAnalyser, one per statement
kind it handles. -/
def analyserVisit (selStart selEnd : Nat) (st : AnalyserState) :
    Stmt → AnalyserState
  | .compound _ _ children => analyserVisitList selStart selEnd st children
  | .caseS _ _ body =>
    match body with
    | none => st
    | some b => analyserStatement selStart selEnd st b
  | .doS _ _ body =>
    match body with
    | none => st
    | some b => analyserStatement selStart selEnd st b
  | .forS _ _ ini body =>
    let st1 :=
      match ini with
      | none => st
      | some b => analyserStatement selStart selEnd st b
    if st1.done then st1
    else
      match body with
      | none => st1
      | some b => analyserStatement selStart selEnd st1 b
  | .ifS _ _ body els =>
    let st1 :=
      match body with
      | none => st
      | some b => analyserStatement selStart selEnd st b
    if st1.done then st1
    else
      match els with
      | none => st1
      | some b => analyserStatement selStart selEnd st1 b
  | .whileS _ _ body =>
    match body with
    | none => st
    | some b => analyserStatement selStart selEnd st b
  | .declS _ _ entries =>
    { st with
      knownDecls := entries.foldl
        (fun m p => if p.1.isEmpty then m else insertDecl m p.1 p.2)
        st.knownDecls }
  | .retS _ _ =>
    if st.extractionStart ≠ 0 then { st with done := true, failed := true }
    else st
  | .exprS _ _ => st
termination_by stmt => (sizeOf stmt, 0)

/-- visit(CompoundStatementAST): each child through `statement`, stopping
once done. -/
def analyserVisitList (selStart selEnd : Nat) (st : AnalyserState) :
    List Stmt → AnalyserState
  | [] => st
  | stmt :: rest =>
    let st1 := analyserStatement selStart selEnd st stmt
    if st1.done then st1 else analyserVisitList selStart selEnd st1 rest
termination_by l => (sizeOf l, 0)

end

/-- FunctionExtractionAnalyser::operator(): runs the traversal over the
reference function body's statements and reports success; an empty
extraction range is a failure. -/
def analyserRun (selStart selEnd : Nat) (bodyChildren : List Stmt) :
    AnalyserState × Bool :=
  let st0 : AnalyserState := ⟨false, false, 0, 0, []⟩
  let st := analyserVisitList selStart selEnd st0 bodyChildren
  let failed := st.failed || (st.extractionStart == st.extractionEnd)
  ({ st with failed := failed }, !failed)

/-- One entry of SemanticInfo::localUses: a local symbol's name and the
buffer positions of its (valid) uses. -/
structure LocalUse where
  name : String
  uses : List Nat
deriving DecidableEq

/-- The parts of the match interface that ExtractFunction::doMatch reads:
the selection, the reference function definition found on the path (its
body statements, symbol/name presence, template-scope flag, and the
assembled (name, declaration) data of its parameters), and the semantic
local-use map. -/
structure ExtractFunctionInterface where
  hasSelection : Bool
  selectionStart : Nat
  selectionEnd : Nat
  funcDefFound : Bool
  functionBody : Option (List Stmt)
  hasSymbolName : Bool
  enclosingTemplate : Bool
  refParams : List (String × String)
  localUses : List LocalUse

structure ExtractFunctionOp where
  extractionStart : Nat
  extractionEnd : Nat
  funcReturn : Option String
  relevantDecls : List (String × String)
deriving DecidableEq

/-- `usedBeforeExtraction`: some use position lies before the extraction. -/
def usedBeforeB (exStart : Nat) (lu : LocalUse) : Bool :=
  lu.uses.any (fun p => decide (p < exStart))

/-- `usedAfterExtraction`: some use position lies at or past the end. -/
def usedAfterB (exEnd : Nat) (lu : LocalUse) : Bool :=
  lu.uses.any (fun p => decide (p ≥ exEnd))

/-- `usedInsideExtraction`: some use position lies inside the extraction. -/
def usedInsideB (exStart exEnd : Nat) (lu : LocalUse) : Bool :=
  lu.uses.any (fun p => decide (exStart ≤ p ∧ p < exEnd))

/-- The `usedInsideExtraction && usedAfterExtraction &&
!usedBeforeExtraction` test: whether a local qualifies as a return-value
candidate. -/
def qualifiesAsReturn (exStart exEnd : Nat) (lu : LocalUse) : Bool :=
  usedInsideB exStart exEnd lu && usedAfterB exEnd lu
    && !usedBeforeB exStart lu

/-- The local-uses classification loop of ExtractFunction::doMatch.
Returns none when the match is silently declined: a failed
`QTC_ASSERT(m_knownDecls.contains(name), return)` or a second
return-value candidate. -/
def candidateLoop (knownDecls : List (String × String))
    (refFuncParams : List String) (exStart exEnd : Nat) :
    Option String → List (String × String) → List LocalUse →
      Option (Option String × List (String × String))
  | funcReturn, relevantDecls, [] => some (funcReturn, relevantDecls)
  | funcReturn, relevantDecls, lu :: rest =>
    let usedBefore := usedBeforeB exStart lu
    let usedInside := usedInsideB exStart exEnd lu
    let step1 : Option (List (String × String)) :=
      if (usedBefore && usedInside)
          || (usedInside && refFuncParams.contains lu.name) then
        match lookupDecl knownDecls lu.name with
        | some d => some (relevantDecls ++ [(lu.name, d)])
        | none => none
      else some relevantDecls
    match step1 with
    | none => none
    | some relevantDecls1 =>
      if qualifiesAsReturn exStart exEnd lu then
        match funcReturn with
        | none =>
          match lookupDecl knownDecls lu.name with
          | some d =>
            candidateLoop knownDecls refFuncParams exStart exEnd
              (some lu.name) ((lu.name, d) :: relevantDecls1) rest
          | none => none
        | some _ => none
      else
        candidateLoop knownDecls refFuncParams exStart exEnd
          funcReturn relevantDecls1 rest

/-- The analyser state ExtractFunction::doMatch computes for a context
(after normalizing the selection ends). -/
def analyserStateOf (ctx : ExtractFunctionInterface) : AnalyserState :=
  (analyserRun (min ctx.selectionStart ctx.selectionEnd)
    (max ctx.selectionStart ctx.selectionEnd) (ctx.functionBody.getD [])).1

def ExtractFunction.doMatch (ctx : ExtractFunctionInterface) :
    List ExtractFunctionOp :=
  if ¬ctx.hasSelection then []
  else if ¬ctx.funcDefFound then []
  else
    match ctx.functionBody with
    | none => []
    | some children =>
      if children.isEmpty then []
      else if ¬ctx.hasSymbolName then []
      else if ctx.enclosingTemplate then []
      else
        let selStart := min ctx.selectionStart ctx.selectionEnd
        let selEnd := max ctx.selectionStart ctx.selectionEnd
        let res := analyserRun selStart selEnd children
        if ¬res.2 then []
        else
          let st := res.1
          let knownDecls := ctx.refParams.foldl
            (fun m p => if p.1.isEmpty then m else insertDecl m p.1 p.2)
            st.knownDecls
          let refFuncParams :=
            (ctx.refParams.filter (fun p => !p.1.isEmpty)).map Prod.fst
          match candidateLoop knownDecls refFuncParams
              st.extractionStart st.extractionEnd none [] ctx.localUses with
          | none => []
          | some (funcReturn, relevantDecls) =>
            [⟨st.extractionStart, st.extractionEnd, funcReturn, relevantDecls⟩]

/-! ## ChangeSet

Modelled from the spec: the ChangeSet implementation (utils/changeset.cpp)
is not part of this snapshot, so this follows spec §4.1 word for word:
primitive edits insert/remove/replace/move/copy/flip over one buffer
snapshot, overlap detection of the primitives' source ranges before any
mutation, rejected apply leaves the buffer untouched, and a successful
apply is a single-pass rewrite whose inserted texts are computed from one
combined snapshot read of the original buffer. -/

inductive EditOp where
  | insert (pos : Nat) (text : List Char)
  | remove (s e : Nat)
  | replace (s e : Nat) (text : List Char)
  | move (s e dst : Nat)
  | copy (s e dst : Nat)
  | flip (s1 e1 s2 e2 : Nat)
deriving DecidableEq

/-- The source ranges of a primitive edit (half-open). The destination of a
move/copy is an insertion point, not a source range; the two ranges of a
flip are related within the one primitive. -/
def EditOp.sourceRanges : EditOp → List (Nat × Nat)
  | .insert p _ => [(p, p)]
  | .remove s e => [(s, e)]
  | .replace s e _ => [(s, e)]
  | .move s e _ => [(s, e)]
  | .copy s e _ => [(s, e)]
  | .flip s1 e1 s2 e2 => [(s1, e1), (s2, e2)]

def rangesIntersect (a b : Nat × Nat) : Bool :=
  decide (a.1 < b.2) && decide (b.1 < a.2)

/-- Two distinct primitives conflict when any of their source ranges
intersect; ranges within one primitive (move/copy/flip) are explicitly
related and exempt. -/
def pairOverlap (x y : EditOp) : Bool :=
  x.sourceRanges.any (fun a => y.sourceRanges.any (fun b => rangesIntersect a b))

def hasOverlap : List EditOp → Bool
  | [] => false
  | x :: rest => rest.any (pairOverlap x) || hasOverlap rest

def sliceOf (buf : List Char) (s e : Nat) : List Char :=
  (buf.take e).drop s

/-- Normalization of one primitive into replacements, with all inserted
text computed from the original buffer snapshot. -/
def EditOp.toReplacements (buf : List Char) : EditOp → List (Nat × Nat × List Char)
  | .insert p t => [(p, p, t)]
  | .remove s e => [(s, e, [])]
  | .replace s e t => [(s, e, t)]
  | .move s e d => [(s, e, []), (d, d, sliceOf buf s e)]
  | .copy s e d => [(d, d, sliceOf buf s e)]
  | .flip s1 e1 s2 e2 => [(s1, e1, sliceOf buf s2 e2), (s2, e2, sliceOf buf s1 e1)]

def applyOne (buf : List Char) (r : Nat × Nat × List Char) : List Char :=
  buf.take r.1 ++ r.2.2 ++ buf.drop r.2.1

def insertByStart (r : Nat × Nat × List Char) :
    List (Nat × Nat × List Char) → List (Nat × Nat × List Char)
  | [] => [r]
  | x :: xs => if r.1 ≥ x.1 then r :: x :: xs else x :: insertByStart r xs

/-- Sort replacements by source position, descending, so that applying them
in order keeps the positions of the not-yet-applied ones stable. -/
def sortByStartDesc (l : List (Nat × Nat × List Char)) :
    List (Nat × Nat × List Char) :=
  l.foldr insertByStart []

/-- `ChangeSet::apply`: fail closed on overlap detection before any
mutation, otherwise rewrite the buffer in one pass. -/
def ChangeSet.apply (edits : List EditOp) (buf : List Char) :
    Bool × List Char :=
  if hasOverlap edits then (false, buf)
  else
    let repls := edits.foldr (fun e acc => e.toReplacements buf ++ acc) []
    (true, (sortByStartDesc repls).foldl applyOne buf)

def CNode.isSwitchNode : CNode → Bool
  | .switchStmt _ => true
  | _ => false

/-! ## Supporting lemmas -/

theorem natDigitsRevAux_eq (b : Nat) (hb : 1 < b) :
    ∀ fuel n, n ≤ fuel →
      natDigitsRevAux b fuel n = (Nat.digits b n).map hexDigitChar := by
  intro fuel
  induction fuel with
  | zero =>
    intro n hn
    have h0 : n = 0 := by omega
    subst h0
    simp [natDigitsRevAux]
  | succ fuel ih =>
    intro n hn
    by_cases h0 : n = 0
    · subst h0
      simp [natDigitsRevAux]
    · rw [natDigitsRevAux, if_neg h0]
      rw [Nat.digits_def' hb (Nat.pos_of_ne_zero h0), List.map_cons]
      congr 1
      have hdiv : n / b < n := Nat.div_lt_self (Nat.pos_of_ne_zero h0) hb
      exact ih (n / b) (by omega)

theorem natDigitsStr_eq (b n : Nat) (hb : 1 < b) :
    natDigitsStr b n = if n = 0 then ['0']
      else ((Nat.digits b n).map hexDigitChar).reverse := by
  unfold natDigitsStr
  by_cases h0 : n = 0
  · simp [h0]
  · rw [if_neg h0, if_neg h0, natDigitsRevAux_eq b hb n n le_rfl]

theorem digitVal?_hexDigitChar : ∀ d < 16, digitVal? (hexDigitChar d) = some d := by
  decide

theorem hexDigitChar_ne_zero : ∀ d < 16, d ≠ 0 → hexDigitChar d ≠ '0' := by
  decide

theorem parseDigitsAux_append (b : Nat) (xs ys : List Char) :
    ∀ acc, parseDigitsAux b acc (xs ++ ys) =
      match parseDigitsAux b acc xs with
      | some m => parseDigitsAux b m ys
      | none => none := by
  induction xs with
  | nil => intro acc; rfl
  | cons c rest ih =>
    intro acc
    simp only [List.cons_append, parseDigitsAux]
    cases hc : digitVal? c with
    | none => rfl
    | some d =>
      by_cases hd : d < b
      · simp only [if_pos hd]; exact ih _
      · simp only [if_neg hd]

theorem parseDigitsAux_print (b : Nat) (hb16 : b ≤ 16) (l : List Nat)
    (hl : ∀ d ∈ l, d < b) :
    ∀ acc, parseDigitsAux b acc ((l.map hexDigitChar).reverse) =
      some (acc * b ^ l.length + Nat.ofDigits b l) := by
  induction l with
  | nil => intro acc; simp [parseDigitsAux, Nat.ofDigits]
  | cons d t ih =>
    intro acc
    have hd : d < b := hl d (by simp)
    have hd16 : d < 16 := lt_of_lt_of_le hd hb16
    have ht : ∀ x ∈ t, x < b := fun x hx => hl x (by simp [hx])
    rw [List.map_cons, List.reverse_cons, parseDigitsAux_append]
    rw [ih ht acc]
    simp only [parseDigitsAux, digitVal?_hexDigitChar d hd16, if_pos hd]
    congr 1
    rw [Nat.ofDigits_cons, List.length_cons, pow_succ]
    ring

theorem toULongDigits_natDigitsStr (b n : Nat) (hb : 1 < b) (hb16 : b ≤ 16)
    (hn : n < ulongSize) : toULongDigits b (natDigitsStr b n) = some n := by
  by_cases h0 : n = 0
  · subst h0
    have h0b : (0:Nat) < b := by omega
    rw [natDigitsStr_eq b 0 hb]
    simp only [if_pos rfl, toULongDigits, List.isEmpty_cons,
      Bool.false_eq_true, if_false, parseDigitsAux]
    have : digitVal? '0' = some 0 := by decide
    rw [this]
    simp only [if_pos h0b, parseDigitsAux]
    have : (0:Nat) < ulongSize := by norm_num [ulongSize]
    simp [this]
  · have hne : Nat.digits b n ≠ [] := Nat.digits_ne_nil_iff_ne_zero.mpr h0
    have hlt : ∀ d ∈ Nat.digits b n, d < b := fun d hd => Nat.digits_lt_base hb hd
    rw [natDigitsStr_eq b n hb]
    simp only [if_neg h0, toULongDigits]
    have hemp : (((Nat.digits b n).map hexDigitChar).reverse).isEmpty = false := by
      rw [List.isEmpty_eq_false_iff_exists_mem]
      rcases List.exists_mem_of_ne_nil _ hne with ⟨d, hd⟩
      exact ⟨hexDigitChar d, by simp [List.mem_reverse]; exact ⟨d, hd, rfl⟩⟩
    rw [hemp]
    simp only [Bool.false_eq_true, if_false]
    rw [parseDigitsAux_print b hb16 _ hlt 0]
    simp only [Nat.zero_mul, Nat.zero_add, Nat.ofDigits_digits]
    simp [hn]

theorem natDigitsStr_ne_nil (b n : Nat) : natDigitsStr b n ≠ [] := by
  unfold natDigitsStr
  by_cases h0 : n = 0
  · simp [h0]
  · rw [if_neg h0]
    rcases n with _ | m
    · exact absurd rfl h0
    · rw [natDigitsRevAux, if_neg h0]
      simp

theorem natDigitsStr_head (b n : Nat) (hb : 1 < b) (hb16 : b ≤ 16) (h0 : n ≠ 0) :
    ∃ c l, natDigitsStr b n = c :: l ∧ c ≠ '0' := by
  have hne : Nat.digits b n ≠ [] := Nat.digits_ne_nil_iff_ne_zero.mpr h0
  have hlast := Nat.getLast_digit_ne_zero b h0
  rcases hh : natDigitsStr b n with _ | ⟨c, l⟩
  · exact absurd hh (natDigitsStr_ne_nil b n)
  · refine ⟨c, l, rfl, ?_⟩
    have hhead : (natDigitsStr b n).head? = some c := by rw [hh]; rfl
    rw [natDigitsStr_eq b n hb, if_neg h0, List.head?_reverse] at hhead
    have hgl : ((Nat.digits b n).map hexDigitChar).getLast? =
        some (hexDigitChar ((Nat.digits b n).getLast hne)) := by
      rw [List.getLast?_eq_getLast _ (by simpa using hne)]
      congr 1
      rw [List.getLast_map]
    rw [hgl] at hhead
    have hc : c = hexDigitChar ((Nat.digits b n).getLast hne) := by
      injection hhead.symm
    have hdl : (Nat.digits b n).getLast hne < 16 :=
      lt_of_lt_of_le (Nat.digits_lt_base hb (List.getLast_mem hne)) hb16
    rw [hc]
    exact hexDigitChar_ne_zero _ hdl hlast

theorem toULongBase0_decimal (n : Nat) (hn : n < ulongSize) :
    toULongBase0 (natDigitsStr 10 n) = some n := by
  by_cases h0 : n = 0
  · subst h0; rfl
  · rcases natDigitsStr_head 10 n (by norm_num) (by norm_num) h0 with ⟨c, l, hh, hc⟩
    rw [hh]
    simp only [toULongBase0, if_neg hc]
    rw [← hh]
    exact toULongDigits_natDigitsStr 10 n (by norm_num) (by norm_num) hn

theorem toULongBase0_hex (n : Nat) (hn : n < ulongSize) :
    toULongBase0 ('0' :: 'x' :: natDigitsStr 16 n) = some n := by
  simp only [toULongBase0, if_pos rfl]
  norm_num
  exact toULongDigits_natDigitsStr 16 n (by norm_num) (by norm_num) hn

theorem natDigitsStr_length_le (v : Nat) (hv : v < ulongSize) :
    (natDigitsStr 2 v).length ≤ 64 := by
  by_cases h0 : v = 0
  · simp [natDigitsStr, h0]
  · rw [natDigitsStr_eq 2 v (by norm_num), if_neg h0]
    simp only [List.length_reverse, List.length_map]
    rw [Nat.digits_len 2 v (by norm_num) h0]
    have := (Nat.lt_pow_iff_log_lt (b := 2) (by norm_num) h0 (x := 64)).mp
      (by simpa [ulongSize] using hv)
    omega

theorem bitString64_dropWhile (v : Nat) (h0 : v ≠ 0) :
    (bitString64 v).dropWhile (fun c => c == '0') = natDigitsStr 2 v := by
  have hall : ∀ c ∈ List.replicate (64 - (natDigitsStr 2 v).length) '0',
      (fun c => c == '0') c = true := by
    intro c hc
    rw [List.eq_of_mem_replicate hc]
    rfl
  rw [bitString64, List.dropWhile_append_of_pos hall]
  rcases natDigitsStr_head 2 v (by norm_num) (by norm_num) h0 with ⟨c, l, hh, hc⟩
  rw [hh, List.dropWhile_cons_of_neg]
  simpa using hc

theorem CNode.asBinExpr_eq_some {n : CNode} {k : Nat} {c : Bool}
    (h : n.asBinExpr = some (k, c)) : n = CNode.binExpr k c := by
  cases n <;> simp_all [CNode.asBinExpr]

theorem splitIfLoop_mem :
    ∀ (rest : List CNode) (hasElse : Bool) (k0 idx : Nat)
      (op : SplitIfStatementOp), op ∈ splitIfLoop hasElse k0 idx rest →
      ∃ m k, m < rest.length ∧ op.priority = idx + m ∧
        (k0 = 0 → (k = T_AMPER_AMPER ∨ k = T_PIPE_PIPE) ∧
          (k = T_AMPER_AMPER → hasElse = false)) ∧
        (k0 ≠ 0 → k = k0) ∧
        (∀ j, j ≤ m → ∃ c, rest[j]? = some (CNode.binExpr k c)) ∧
        rest[m]? = some (CNode.binExpr k true) := by
  intro rest
  induction rest with
  | nil => intro hasElse k0 idx op h; simp [splitIfLoop] at h
  | cons node rest ih =>
    intro hasElse k0 idx op h
    rw [splitIfLoop] at h
    cases hbe : node.asBinExpr with
    | none => rw [hbe] at h; simp at h
    | some kc =>
      obtain ⟨k1, c⟩ := kc
      rw [hbe] at h
      dsimp only at h
      have hnode : node = CNode.binExpr k1 c := CNode.asBinExpr_eq_some hbe
      subst hnode
      by_cases hk0 : k0 = 0
      · subst hk0
        rw [if_pos rfl] at h
        by_cases hvalid : k1 = T_AMPER_AMPER ∨ k1 = T_PIPE_PIPE
        · rw [if_neg (not_not_intro hvalid)] at h
          by_cases hae : k1 = T_AMPER_AMPER ∧ hasElse = true
          · rw [if_pos hae] at h
            simp at h
          · rw [if_neg hae] at h
            cases c with
            | true =>
              rw [if_pos rfl] at h
              simp only [List.mem_singleton] at h
              subst h
              refine ⟨0, k1, by simp, by simp, ?_, ?_, ?_, by simp⟩
              · intro _
                refine ⟨hvalid, fun hk => ?_⟩
                by_contra hne
                exact hae ⟨hk, by simpa using hne⟩
              · intro hcon; exact absurd rfl hcon
              · intro j hj
                interval_cases j
                exact ⟨true, by simp⟩
            | false =>
              rw [if_neg (by simp)] at h
              have hk1ne : k1 ≠ 0 := by
                rcases hvalid with hv | hv <;> subst hv <;> decide
              obtain ⟨m, k, hm, hpr, _, hkk, hchain, hcur⟩ :=
                ih hasElse k1 (idx + 1) op h
              have hkeq : k = k1 := hkk hk1ne
              refine ⟨m + 1, k1, by simpa using hm, by omega, ?_, ?_, ?_, ?_⟩
              · intro _
                refine ⟨hvalid, fun hk => ?_⟩
                by_contra hne
                exact hae ⟨hk, by simpa using hne⟩
              · intro hcon; exact absurd rfl hcon
              · intro j hj
                cases j with
                | zero => exact ⟨false, by simp⟩
                | succ j' =>
                  obtain ⟨cc, hcc⟩ := hchain j' (by omega)
                  rw [hkeq] at hcc
                  exact ⟨cc, by simpa using hcc⟩
              · rw [hkeq] at hcur
                simpa using hcur
        · rw [if_pos hvalid] at h
          simp at h
      · rw [if_neg hk0] at h
        by_cases hkk1 : k0 ≠ k1
        · rw [if_pos hkk1] at h
          simp at h
        · rw [if_neg hkk1] at h
          have hke : k0 = k1 := by
            by_contra hcon
            exact hkk1 hcon
          cases c with
          | true =>
            rw [if_pos rfl] at h
            simp only [List.mem_singleton] at h
            subst h
            refine ⟨0, k0, by simp, by simp, fun hcon => absurd hcon hk0,
              fun _ => rfl, ?_, by simp [hke]⟩
            intro j hj
            interval_cases j
            exact ⟨true, by simp [hke]⟩
          | false =>
            rw [if_neg (by simp)] at h
            obtain ⟨m, k, hm, hpr, _, hkk, hchain, hcur⟩ :=
              ih hasElse k0 (idx + 1) op h
            have hkeq : k = k0 := hkk hk0
            refine ⟨m + 1, k0, by simpa using hm, by omega,
              fun hcon => absurd hcon hk0, fun _ => rfl, ?_, ?_⟩
            · intro j hj
              cases j with
              | zero => exact ⟨false, by simp [hke]⟩
              | succ j' =>
                obtain ⟨cc, hcc⟩ := hchain j' (by omega)
                rw [hkeq] at hcc
                exact ⟨cc, by simpa using hcc⟩
            · rw [hkeq] at hcur
              simpa using hcur

/-! ## Claim C1 -/

/-- C1: SplitIfStatement::doMatch offers an operation only when the deepest
enclosing if-statement has a body, the condition chain from that if down to
the emission point consists of binary expressions of one single operator
kind (`&&` exclusively or `||` exclusively, no mixing), the cursor is on
the binary operator token of the emission node, and, when the kind is `&&`,
the if-statement has no else branch.  In particular `if (a && b)` with no
else branch offers exactly one operation, and the same condition with an
else branch offers none. -/
theorem splitIfStatement_claim :
    (∀ (path : List CNode) (op : SplitIfStatementOp),
       op ∈ SplitIfStatement.doMatch path →
       ∃ i he m k,
         lastIfIndex path = some (i, true, he) ∧
         op.priority = i + 1 + m ∧
         (k = T_AMPER_AMPER ∨ k = T_PIPE_PIPE) ∧
         (k = T_AMPER_AMPER → he = false) ∧
         (∀ j, j ≤ m → ∃ c, path[i + 1 + j]? = some (CNode.binExpr k c)) ∧
         path[i + 1 + m]? = some (CNode.binExpr k true))
    ∧ SplitIfStatement.doMatch
        [CNode.ifStmt true false, CNode.binExpr T_AMPER_AMPER true] = [⟨1⟩]
    ∧ SplitIfStatement.doMatch
        [CNode.ifStmt true true, CNode.binExpr T_AMPER_AMPER true] = [] := by
  refine ⟨?_, by decide, by decide⟩
  intro path op h
  unfold SplitIfStatement.doMatch at h
  cases hif : lastIfIndex path with
  | none => rw [hif] at h; simp at h
  | some t =>
    obtain ⟨i, hs, he⟩ := t
    rw [hif] at h
    dsimp only at h
    cases hs with
    | false => simp at h
    | true =>
      rw [if_pos rfl] at h
      obtain ⟨m, k, hm, hpr, hvalid0, _, hchain, hcur⟩ :=
        splitIfLoop_mem _ _ _ _ _ h
      obtain ⟨hvalid, hhe⟩ := hvalid0 rfl
      refine ⟨i, he, m, k, rfl, hpr, hvalid, hhe, ?_, ?_⟩
      · intro j hj
        obtain ⟨c, hc⟩ := hchain j hj
        rw [List.getElem?_drop] at hc
        exact ⟨c, hc⟩
      · rw [List.getElem?_drop] at hcur
        exact hcur

/-- Witness for C1: the soundness part applied to `if (a || b)` with the
cursor on the `||` token. -/
theorem splitIfStatement_claim_witness :
    ((⟨1⟩ : SplitIfStatementOp) ∈ SplitIfStatement.doMatch
       [CNode.ifStmt true false, CNode.binExpr T_PIPE_PIPE true]) ∧
    (∃ i he m k,
       lastIfIndex [CNode.ifStmt true false, CNode.binExpr T_PIPE_PIPE true]
         = some (i, true, he) ∧
       (⟨1⟩ : SplitIfStatementOp).priority = i + 1 + m ∧
       (k = T_AMPER_AMPER ∨ k = T_PIPE_PIPE) ∧
       (k = T_AMPER_AMPER → he = false) ∧
       (∀ j, j ≤ m → ∃ c,
         [CNode.ifStmt true false,
          CNode.binExpr T_PIPE_PIPE true][i + 1 + j]? =
           some (CNode.binExpr k c)) ∧
       [CNode.ifStmt true false,
        CNode.binExpr T_PIPE_PIPE true][i + 1 + m]? =
         some (CNode.binExpr k true)) :=
  ⟨by decide, splitIfStatement_claim.1 _ _ (by decide)⟩

/-! ## Claim C2 -/

theorem foldl_removeAllQ (used : List String) :
    ∀ members, used.foldl removeAllQ members
      = members.filter (fun m => !used.contains m) := by
  induction used with
  | nil =>
    intro members
    simp [List.foldl]
  | cons u us ih =>
    intro members
    rw [List.foldl_cons, ih, removeAllQ, List.filter_filter]
    congr 1
    funext x
    by_cases hxu : x = u <;> simp [hxu, List.contains_cons]

theorem completeSwitchLoop_eq :
    ∀ (pre : List (Nat × CNode)), (∀ p ∈ pre, p.2.isSwitchNode = false) →
    ∀ (depth : Nat) (d : SwitchData) (rest : List (Nat × CNode)),
      completeSwitchLoop (pre ++ (depth, CNode.switchStmt d) :: rest) =
        match d.statement with
        | none => []
        | some isCompound =>
          if ¬d.hasSymbol then []
          else if ¬isCompound then []
          else
            match d.condEnum with
            | some members =>
              let values := d.usedValues.foldl removeAllQ members
              if values.isEmpty then [] else [⟨depth, values⟩]
            | none => [] := by
  intro pre
  induction pre with
  | nil => intro _ depth d rest; rfl
  | cons p pre ih =>
    intro hpre depth d rest
    obtain ⟨i, n⟩ := p
    have hn : n.isSwitchNode = false := hpre (i, n) (List.mem_cons_self _ _)
    have hrec := ih (fun q hq => hpre q (List.mem_cons_of_mem _ hq)) depth d rest
    rw [List.cons_append]
    cases n
    case switchStmt dd => simp [CNode.isSwitchNode] at hn
    all_goals simpa [completeSwitchLoop] using hrec

/-- C2: CompleteSwitchCaseStatement::doMatch, at the deepest switch on the
path, with a compound body and a symbol, and with a condition whose static
type resolves to an enum, emits exactly one operation carrying the enum
members not already used as case labels, subtracted by name in declaration
order; it emits nothing when the type does not resolve to an enum or when
every member is used.  Concretely, for enum {A,B,C} with `case A:` present
the one operation inserts exactly `case B:\nbreak;\ncase C:\nbreak;`. -/
theorem completeSwitchCase_claim :
    (∀ (path : List CNode) (pre rest : List (Nat × CNode)) (depth : Nat)
       (d : SwitchData),
       (enumIdx 0 path).reverse = pre ++ (depth, CNode.switchStmt d) :: rest →
       (∀ p ∈ pre, p.2.isSwitchNode = false) →
       d.statement = some true → d.hasSymbol = true →
       (∀ members, d.condEnum = some members →
          CompleteSwitchCaseStatement.doMatch path =
            (if (members.filter (fun m => !d.usedValues.contains m)).isEmpty
             then []
             else [⟨depth, members.filter (fun m => !d.usedValues.contains m)⟩])) ∧
       (d.condEnum = none → CompleteSwitchCaseStatement.doMatch path = []))
    ∧ CompleteSwitchCaseStatement.doMatch
        [CNode.switchStmt ⟨some true, true, some ["A", "B", "C"], ["A"]⟩]
        = [⟨0, ["B", "C"]⟩]
    ∧ switchInsertion ["B", "C"] = "\ncase B:\nbreak;\ncase C:\nbreak;"
    ∧ CompleteSwitchCaseStatement.doMatch
        [CNode.switchStmt ⟨some true, true, some ["A", "B", "C"],
          ["A", "B", "C"]⟩] = [] := by
  refine ⟨?_, by decide, by decide, by decide⟩
  intro path pre rest depth d henum hpre hstmt hsym
  have hbase : CompleteSwitchCaseStatement.doMatch path
      = completeSwitchLoop (pre ++ (depth, CNode.switchStmt d) :: rest) := by
    rw [CompleteSwitchCaseStatement.doMatch, henum]
  rw [completeSwitchLoop_eq pre hpre depth d rest, hstmt] at hbase
  constructor
  · intro members hmem
    rw [hmem] at hbase
    simp only [hsym] at hbase
    rw [hbase, foldl_removeAllQ]
    simp
  · intro hnone
    rw [hnone] at hbase
    simp only [hsym] at hbase
    simpa using hbase

/-- Witness for C2: the general part applied to a one-node path whose
switch resolves to enum {A,B,C} with `case A:` already present. -/
theorem completeSwitchCase_claim_witness :
    CompleteSwitchCaseStatement.doMatch
        [CNode.switchStmt ⟨some true, true, some ["A", "B", "C"], ["A"]⟩]
      = (if ((["A", "B", "C"].filter
              (fun m => !(["A"] : List String).contains m)).isEmpty)
         then []
         else [⟨0, ["A", "B", "C"].filter
                 (fun m => !(["A"] : List String).contains m)⟩]) :=
  ((completeSwitchCase_claim.1
      [CNode.switchStmt ⟨some true, true, some ["A", "B", "C"], ["A"]⟩]
      [] [] 0 ⟨some true, true, some ["A", "B", "C"], ["A"]⟩
      (by decide) (by simp) rfl rfl).1
    ["A", "B", "C"] rfl)

/-! ## Claim C6 -/

theorem walkElseChain_needsNoWrap : ∀ e : ElseBranch,
    ((walkElseChain e).1 = 0 ∧ (walkElseChain e).2 ≠ some false)
      ↔ e.needsNoWrap = true := by
  intro e
  induction e with
  | noElse => simp [walkElseChain, ElseBranch.needsNoWrap]
  | elseIf hb bc els ih =>
    rw [ElseBranch.needsNoWrap, walkElseChain]
    rcases hwe : walkElseChain els with ⟨cnt, t⟩
    rw [hwe] at ih
    dsimp only at ih ⊢
    cases hb <;> cases bc <;> simp_all
  | elseOther c => cases c <;> simp [walkElseChain, ElseBranch.needsNoWrap]

theorem helperIf_eq_nil_iff (cursorOn : Bool) (c : IfChain) :
    checkControlStatementsHelperIf cursorOn c = [] ↔
      (cursorOn && c.hasBody && !c.bodyCompound) = false
        ∧ c.els.needsNoWrap = true := by
  rw [checkControlStatementsHelperIf]
  have hiff := walkElseChain_needsNoWrap c.els
  rcases hwe : walkElseChain c.els with ⟨cnt, t⟩
  rw [hwe] at hiff
  dsimp only at hiff ⊢
  rw [← hiff]
  cases hco : (cursorOn && c.hasBody && !c.bodyCompound) <;>
    cases cnt <;>
    rcases t with _ | ⟨_ | _⟩ <;>
    simp_all

/-- C6: AddBracesToControlStatement is idempotent on if-statements: when the
if body is already a compound statement and the else chain needs no
wrapping, zero operations are offered; and whenever an operation is
offered, either the cursor is on the `if` token of a single non-compound
body, or somewhere in the else chain a body (or a trailing else) still
needs braces. -/
theorem addBraces_claim :
    (∀ (cursorOn hb : Bool) (els : ElseBranch), els.needsNoWrap = true →
       checkControlStatementsHelperIf cursorOn ⟨hb, true, els⟩ = [])
    ∧ (∀ (cursorOn : Bool) (c : IfChain),
       checkControlStatementsHelperIf cursorOn c ≠ [] →
       (cursorOn = true ∧ c.hasBody = true ∧ c.bodyCompound = false)
         ∨ c.els.needsNoWrap = false)
    ∧ checkControlStatementsHelperIf true ⟨true, true, ElseBranch.noElse⟩
        = [] := by
  refine ⟨?_, ?_, by decide⟩
  · intro cursorOn hb els hw
    exact (helperIf_eq_nil_iff cursorOn ⟨hb, true, els⟩).mpr ⟨by simp, hw⟩
  · intro cursorOn c h
    by_contra hcon
    push_neg at hcon
    obtain ⟨h1, h2⟩ := hcon
    apply h
    refine (helperIf_eq_nil_iff cursorOn c).mpr ⟨?_, ?_⟩
    · cases hcu : cursorOn <;> cases hhb : c.hasBody <;>
        cases hbc : c.bodyCompound <;> simp_all
    · cases hnw : c.els.needsNoWrap
      · exact absurd hnw h2
      · rfl

/-- Witness for C6: the idempotence part applied to an if-statement whose
body is already compound and whose else branch is absent. -/
theorem addBraces_claim_witness :
    checkControlStatementsHelperIf false ⟨true, true, ElseBranch.noElse⟩
      = [] :=
  addBraces_claim.1 false true ElseBranch.noElse (by decide)

/-! ## ConvertNumericLiteral support lemmas -/

theorem toULongDigits_lt {b : Nat} {cs : List Char} {v : Nat}
    (h : toULongDigits b cs = some v) : v < ulongSize := by
  unfold toULongDigits at h
  split at h
  · exact absurd h (by simp)
  · split at h
    · split at h
      · injection h with h'
        omega
      · exact absurd h (by simp)
    · exact absurd h (by simp)

theorem toULongBase0_lt {cs : List Char} {v : Nat}
    (h : toULongBase0 cs = some v) : v < ulongSize := by
  unfold toULongBase0 at h
  split at h
  · exact absurd h (by simp)
  · split at h
    · split at h
      · injection h with h'
        rw [← h']
        norm_num [ulongSize]
      · split at h
        · exact toULongDigits_lt h
        · exact toULongDigits_lt h
    · exact toULongDigits_lt h

theorem literalValue_lt {x : List Char} {v : Nat}
    (h : literalValue x = some v) : v < ulongSize := by
  unfold literalValue at h
  split at h
  · exact toULongDigits_lt h
  · exact toULongBase0_lt h

theorem isXDigit_hexDigitChar : ∀ d < 16, isXDigit (hexDigitChar d) = true := by
  decide

theorem natDigitsStr_all_xdigit (b v : Nat) (hb : 1 < b) (hb16 : b ≤ 16) :
    ∀ c ∈ natDigitsStr b v, isXDigit c = true := by
  intro c hc
  by_cases h0 : v = 0
  · subst h0
    simp [natDigitsStr] at hc
    subst hc
    decide
  · rw [natDigitsStr_eq b v hb] at hc
    simp only [if_neg h0, List.mem_reverse, List.mem_map] at hc
    obtain ⟨d, hd, hdc⟩ := hc
    have : d < 16 := lt_of_lt_of_le (Nat.digits_lt_base hb hd) hb16
    rw [← hdc]
    exact isXDigit_hexDigitChar d this

theorem numberLength_all_xdigit (spell : List Char)
    (h : ∀ c ∈ spell, isXDigit c = true) :
    numberLength spell = spell.length := by
  unfold numberLength
  cases hrev : spell.reverse with
  | nil =>
    have : spell = [] := by simpa using congrArg List.reverse hrev
    simp [this]
  | cons hd tl =>
    have hmem : hd ∈ spell := by
      rw [← List.mem_reverse, hrev]
      simp
    rw [List.dropWhile_cons_of_neg (by simp [h hd hmem])]
    have : spell.reverse.length = spell.length := List.length_reverse spell
    rw [hrev] at this
    simpa using this

theorem numberLength_le_length (spell : List Char) :
    numberLength spell ≤ spell.length := by
  unfold numberLength
  calc (spell.reverse.dropWhile (fun c => !isXDigit c)).length
      ≤ spell.reverse.length :=
        ((List.dropWhile_sublist _).length_le)
    _ = spell.length := List.length_reverse spell

theorem literalValue_hexReplacement (v : Nat) (hv : v < ulongSize) :
    literalValue (hexReplacement v) = some v := by
  unfold literalValue hexReplacement
  rw [if_neg (by simp [startsWith0b])]
  exact toULongBase0_hex v hv

theorem hexDigitChar8_bounds :
    ∀ d < 8, 48 ≤ (hexDigitChar d).toNat ∧ (hexDigitChar d).toNat ≤ 55 := by
  decide

theorem natDigitsStr8_bounds (v : Nat) :
    ∀ c ∈ natDigitsStr 8 v, 48 ≤ c.toNat ∧ c.toNat ≤ 55 := by
  intro c hc
  by_cases h0 : v = 0
  · subst h0
    simp [natDigitsStr] at hc
    subst hc
    decide
  · rw [natDigitsStr_eq 8 v (by norm_num)] at hc
    simp only [if_neg h0, List.mem_reverse, List.mem_map] at hc
    obtain ⟨d, hd, hdc⟩ := hc
    have hd8 : d < 8 := Nat.digits_lt_base (by norm_num) hd
    rw [← hdc]
    exact hexDigitChar8_bounds d hd8

theorem literalValue_octalReplacement (v : Nat) (hv : v < ulongSize) :
    literalValue (octalReplacement v) = some v := by
  unfold literalValue octalReplacement
  rcases hds : natDigitsStr 8 v with _ | ⟨c2, rest2⟩
  · exact absurd hds (natDigitsStr_ne_nil 8 v)
  · have hc2 : 48 ≤ c2.toNat ∧ c2.toNat ≤ 55 := by
      apply natDigitsStr8_bounds v
      rw [hds]
      simp
    have hb : (c2 == 'b') = false := by
      rw [beq_eq_false_iff_ne]
      intro hcon
      rw [hcon] at hc2
      simp at hc2
    have hB : (c2 == 'B') = false := by
      rw [beq_eq_false_iff_ne]
      intro hcon
      rw [hcon] at hc2
      simp at hc2
    rw [if_neg (by simp [startsWith0b, hb, hB])]
    show toULongBase0 ('0' :: c2 :: rest2) = some v
    simp only [toULongBase0]
    rw [if_pos trivial]
    have hx : ¬(c2 = 'x' ∨ c2 = 'X') := by
      rintro (hcon | hcon) <;> rw [hcon] at hc2 <;> simp at hc2
    rw [if_neg hx, ← hds]
    exact toULongDigits_natDigitsStr 8 v (by norm_num) (by norm_num) hv

theorem literalValue_decimalReplacement (v : Nat) (hv : v < ulongSize) :
    literalValue (decimalReplacement v) = some v := by
  unfold literalValue decimalReplacement
  by_cases h0 : v = 0
  · subst h0
    decide
  · rcases natDigitsStr_head 10 v (by norm_num) (by norm_num) h0 with ⟨c, l, hh, hc⟩
    rw [hh]
    have hc0 : (c == '0') = false := by
      rw [beq_eq_false_iff_ne]
      exact hc
    cases l with
    | nil =>
      rw [if_neg (by simp [startsWith0b])]
      rw [← hh]
      exact toULongBase0_decimal v hv
    | cons c2 t =>
      rw [if_neg (by simp [startsWith0b, hc0])]
      rw [← hh]
      exact toULongBase0_decimal v hv

theorem literalValue_binaryReplacement (v : Nat) (hv : v < ulongSize) :
    literalValue (binaryReplacement v) = some v := by
  unfold literalValue binaryReplacement
  rw [if_pos (by simp [startsWith0b])]
  by_cases h0 : v = 0
  · subst h0
    decide
  · rw [if_neg h0]
    show toULongDigits 2 ((bitString64 v).dropWhile (fun c => c == '0')) = some v
    rw [bitString64_dropWhile v h0]
    exact toULongDigits_natDigitsStr 2 v (by norm_num) (by norm_num) hv

/-- Characterization of ConvertNumericLiteral::doMatch on a valid integer
literal: the four radix blocks in source order, each guarded by the current
radix. -/
theorem convertNumeric_eq (path : List CNode) (litStart : Nat)
    (tok : TokenData) (v : Nat)
    (hlast : path.getLast? = some (CNode.numericLit tok))
    (hnum : tok.isNumericLiteral = true)
    (hd : tok.isDouble = false) (hf : tok.isFloat = false)
    (hlen : 1 ≤ numberLength tok.spell)
    (hval : literalValue (tok.spell.take (numberLength tok.spell)) = some v) :
    ConvertNumericLiteral.doMatch path litStart =
      (if !tok.isHex then
        [⟨path.length - 1, litStart, litStart + numberLength tok.spell,
          hexReplacement v, ConvKind.toHex⟩] else [])
      ++ (if !spellingIsOctal tok.spell then
        [⟨path.length - 1, litStart, litStart + numberLength tok.spell,
          octalReplacement v, ConvKind.toOctal⟩] else [])
      ++ (if !(!(spellingIsBinary tok.spell || spellingIsOctal tok.spell
              || tok.isHex)) then
        [⟨path.length - 1, litStart, litStart + numberLength tok.spell,
          decimalReplacement v, ConvKind.toDecimal⟩] else [])
      ++ (if !spellingIsBinary tok.spell then
        [⟨path.length - 1, litStart, litStart + numberLength tok.spell,
          binaryReplacement v, ConvKind.toBinary⟩] else []) := by
  unfold ConvertNumericLiteral.doMatch
  rw [hlast]
  dsimp only
  rw [hnum, hd, hf]
  rw [if_neg (by simp)]
  rw [if_neg (by simp)]
  rw [if_neg (by omega)]
  rw [hval]

theorem spellingIsBinary_getD1 {spell : List Char}
    (h : spellingIsBinary spell = true) :
    spell.getD 1 ' ' = 'b' ∨ spell.getD 1 ' ' = 'B' := by
  simp only [spellingIsBinary, Bool.and_eq_true, Bool.or_eq_true,
    beq_iff_eq] at h
  exact h.2

theorem spellingIsOctal_getD1 {spell : List Char}
    (h : spellingIsOctal spell = true) :
    '0' ≤ spell.getD 1 ' ' ∧ spell.getD 1 ' ' ≤ '7' := by
  simp only [spellingIsOctal, Bool.and_eq_true, decide_eq_true_eq] at h
  exact ⟨h.1.2, h.2⟩

theorem binary_octal_exclusive (spell : List Char) :
    ¬(spellingIsBinary spell = true ∧ spellingIsOctal spell = true) := by
  rintro ⟨hb, ho⟩
  have h2 := spellingIsOctal_getD1 ho
  rcases spellingIsBinary_getD1 hb with h1 | h1 <;> rw [h1] at h2 <;>
    revert h2 <;> decide

/-! ## Claim C4 -/

/-- C4: ConvertNumericLiteral::doMatch rejects float and double literals
(zero operations); on every valid integer literal it strips the type
suffix, computes the value, and offers exactly one conversion operation for
each of hexadecimal, octal, decimal and binary except the literal's current
radix, each replacing exactly the digit range and denoting the same value;
the binary replacement has its leading zero bits stripped except that value
0 renders as `0b0`. -/
theorem convertNumericLiteral_claim :
    (∀ (path : List CNode) (litStart : Nat) (tok : TokenData),
       path.getLast? = some (CNode.numericLit tok) →
       (tok.isDouble = true ∨ tok.isFloat = true) →
       ConvertNumericLiteral.doMatch path litStart = [])
    ∧ (∀ (path : List CNode) (litStart : Nat) (tok : TokenData) (v : Nat),
       path.getLast? = some (CNode.numericLit tok) →
       tok.isNumericLiteral = true →
       tok.isDouble = false → tok.isFloat = false →
       1 ≤ numberLength tok.spell →
       literalValue (tok.spell.take (numberLength tok.spell)) = some v →
       (tok.isHex = true →
         tok.spell.getD 1 ' ' = 'x' ∨ tok.spell.getD 1 ' ' = 'X') →
       (ConvertNumericLiteral.doMatch path litStart).length = 3
       ∧ (∀ op ∈ ConvertNumericLiteral.doMatch path litStart,
            op.priority = path.length - 1 ∧ op.start = litStart ∧
            op.stop = litStart + numberLength tok.spell ∧
            literalValue op.replacement = some v)
       ∧ ((∃ op ∈ ConvertNumericLiteral.doMatch path litStart,
             op.kind = ConvKind.toHex) ↔ tok.isHex = false)
       ∧ ((∃ op ∈ ConvertNumericLiteral.doMatch path litStart,
             op.kind = ConvKind.toOctal) ↔ spellingIsOctal tok.spell = false)
       ∧ ((∃ op ∈ ConvertNumericLiteral.doMatch path litStart,
             op.kind = ConvKind.toDecimal) ↔
           (spellingIsBinary tok.spell || spellingIsOctal tok.spell
             || tok.isHex) = true)
       ∧ ((∃ op ∈ ConvertNumericLiteral.doMatch path litStart,
             op.kind = ConvKind.toBinary) ↔ spellingIsBinary tok.spell = false))
    ∧ (∀ v : Nat, v ≠ 0 → v < ulongSize →
        ∃ bits, binaryReplacement v = '0' :: 'b' :: bits ∧
          bits.head? = some '1')
    ∧ binaryReplacement 0 = ['0', 'b', '0'] := by
  refine ⟨?_, ?_, ?_, by decide⟩
  · intro path litStart tok hlast hdf
    unfold ConvertNumericLiteral.doMatch
    rw [hlast]
    dsimp only
    by_cases hnum : tok.isNumericLiteral = true
    · have hor : (tok.isDouble || tok.isFloat) = true := by
        rcases hdf with h | h <;> simp [h]
      rw [if_neg (not_not_intro hnum), if_pos hor]
    · rw [if_pos hnum]
  · intro path litStart tok v hlast hnum hd hf hlen hval hhx
    have heq := convertNumeric_eq path litStart tok v hlast hnum hd hf hlen hval
    have hvlt : v < ulongSize := literalValue_lt hval
    have hrtH := literalValue_hexReplacement v hvlt
    have hrtO := literalValue_octalReplacement v hvlt
    have hrtD := literalValue_decimalReplacement v hvlt
    have hrtB := literalValue_binaryReplacement v hvlt
    cases hB : spellingIsBinary tok.spell <;>
      cases hO : spellingIsOctal tok.spell <;>
      cases hH : tok.isHex
    · -- decimal literal: hex, octal, binary offered
      rw [hB, hO, hH] at heq
      simp at heq
      refine ⟨by rw [heq]; rfl, ?_, ?_, ?_, ?_, ?_⟩
      · intro op hop
        rw [heq] at hop
        simp only [List.mem_cons, List.not_mem_nil, or_false] at hop
        rcases hop with rfl | rfl | rfl
        · exact ⟨rfl, rfl, rfl, hrtH⟩
        · exact ⟨rfl, rfl, rfl, hrtO⟩
        · exact ⟨rfl, rfl, rfl, hrtB⟩
      all_goals rw [heq]
      all_goals simp
    · -- hex literal: octal, decimal, binary offered
      rw [hB, hO, hH] at heq
      simp at heq
      refine ⟨by rw [heq]; rfl, ?_, ?_, ?_, ?_, ?_⟩
      · intro op hop
        rw [heq] at hop
        simp only [List.mem_cons, List.not_mem_nil, or_false] at hop
        rcases hop with rfl | rfl | rfl
        · exact ⟨rfl, rfl, rfl, hrtO⟩
        · exact ⟨rfl, rfl, rfl, hrtD⟩
        · exact ⟨rfl, rfl, rfl, hrtB⟩
      all_goals rw [heq]
      all_goals simp
    · -- octal literal: hex, decimal, binary offered
      rw [hB, hO, hH] at heq
      simp at heq
      refine ⟨by rw [heq]; rfl, ?_, ?_, ?_, ?_, ?_⟩
      · intro op hop
        rw [heq] at hop
        simp only [List.mem_cons, List.not_mem_nil, or_false] at hop
        rcases hop with rfl | rfl | rfl
        · exact ⟨rfl, rfl, rfl, hrtH⟩
        · exact ⟨rfl, rfl, rfl, hrtD⟩
        · exact ⟨rfl, rfl, rfl, hrtB⟩
      all_goals rw [heq]
      all_goals simp
    · -- octal and hex flags cannot both hold
      exfalso
      have h2 := spellingIsOctal_getD1 hO
      rcases hhx hH with h1 | h1 <;> rw [h1] at h2 <;> revert h2 <;> decide
    · -- binary literal: hex, octal, decimal offered
      rw [hB, hO, hH] at heq
      simp at heq
      refine ⟨by rw [heq]; rfl, ?_, ?_, ?_, ?_, ?_⟩
      · intro op hop
        rw [heq] at hop
        simp only [List.mem_cons, List.not_mem_nil, or_false] at hop
        rcases hop with rfl | rfl | rfl
        · exact ⟨rfl, rfl, rfl, hrtH⟩
        · exact ⟨rfl, rfl, rfl, hrtO⟩
        · exact ⟨rfl, rfl, rfl, hrtD⟩
      all_goals rw [heq]
      all_goals simp
    · -- binary and hex flags cannot both hold
      exfalso
      rcases spellingIsBinary_getD1 hB with h1 | h1 <;>
        rcases hhx hH with h2 | h2 <;> rw [h1] at h2 <;> revert h2 <;> decide
    · -- binary and octal flags cannot both hold
      exact absurd ⟨hB, hO⟩ (binary_octal_exclusive tok.spell)
    · -- binary, octal, hex simultaneously: impossible
      exact absurd ⟨hB, hO⟩ (binary_octal_exclusive tok.spell)
  · intro v h0 hv
    refine ⟨(bitString64 v).dropWhile (fun c => c == '0'), ?_, ?_⟩
    · simp [binaryReplacement, h0]
    · rw [bitString64_dropWhile v h0]
      rcases natDigitsStr_head 2 v (by norm_num) (by norm_num) h0
        with ⟨c, l, hh, hc⟩
      have hcm : c ∈ natDigitsStr 2 v := by rw [hh]; simp
      have hb : isXDigit c = true ∧ (c = '0' ∨ c = '1') := by
        constructor
        · exact natDigitsStr_all_xdigit 2 v (by norm_num) (by norm_num) c hcm
        · by_cases hz : v = 0
          · exact absurd hz h0
          · rw [natDigitsStr_eq 2 v (by norm_num)] at hcm
            simp only [if_neg hz, List.mem_reverse, List.mem_map] at hcm
            obtain ⟨d, hdm, hdc⟩ := hcm
            have : d < 2 := Nat.digits_lt_base (by norm_num) hdm
            interval_cases d <;> rw [← hdc] <;> simp [hexDigitChar]
      rcases hb.2 with h1 | h1
      · exact absurd h1 hc
      · rw [hh, h1]
        rfl

/-- Witness for C4: the main part applied to the decimal literal `32`
(path of one node, literal start offset 5). -/
theorem convertNumericLiteral_claim_witness :
    (ConvertNumericLiteral.doMatch
        [CNode.numericLit ⟨true, false, false, false, ['3', '2']⟩] 5).length = 3
    ∧ (∀ op ∈ ConvertNumericLiteral.doMatch
          [CNode.numericLit ⟨true, false, false, false, ['3', '2']⟩] 5,
        op.priority = [CNode.numericLit
            ⟨true, false, false, false, ['3', '2']⟩].length - 1 ∧
        op.start = 5 ∧
        op.stop = 5 + numberLength ['3', '2'] ∧
        literalValue op.replacement = some 32)
    ∧ ((∃ op ∈ ConvertNumericLiteral.doMatch
          [CNode.numericLit ⟨true, false, false, false, ['3', '2']⟩] 5,
          op.kind = ConvKind.toHex) ↔ (false : Bool) = false)
    ∧ ((∃ op ∈ ConvertNumericLiteral.doMatch
          [CNode.numericLit ⟨true, false, false, false, ['3', '2']⟩] 5,
          op.kind = ConvKind.toOctal) ↔ spellingIsOctal ['3', '2'] = false)
    ∧ ((∃ op ∈ ConvertNumericLiteral.doMatch
          [CNode.numericLit ⟨true, false, false, false, ['3', '2']⟩] 5,
          op.kind = ConvKind.toDecimal) ↔
        (spellingIsBinary ['3', '2'] || spellingIsOctal ['3', '2']
          || false) = true)
    ∧ ((∃ op ∈ ConvertNumericLiteral.doMatch
          [CNode.numericLit ⟨true, false, false, false, ['3', '2']⟩] 5,
          op.kind = ConvKind.toBinary) ↔ spellingIsBinary ['3', '2'] = false) :=
  convertNumericLiteral_claim.2.1
    [CNode.numericLit ⟨true, false, false, false, ['3', '2']⟩] 5
    ⟨true, false, false, false, ['3', '2']⟩ 32
    rfl rfl rfl rfl (by decide) (by decide) (by decide)

/-! ## Claim C5 -/

theorem numberLength_of_getLast (spell : List Char) (c : Char)
    (hl : spell.getLast? = some c) (hx : isXDigit c = true) :
    numberLength spell = spell.length := by
  unfold numberLength
  cases hrev : spell.reverse with
  | nil =>
    have : spell = [] := by simpa using congrArg List.reverse hrev
    simp [this]
  | cons hd tl =>
    have hh : spell.reverse.head? = some hd := by rw [hrev]; rfl
    rw [List.head?_reverse, hl] at hh
    injection hh with hh
    rw [List.dropWhile_cons_of_neg (by simp [← hh, hx])]
    have hlen : spell.reverse.length = spell.length := List.length_reverse spell
    rw [hrev] at hlen
    simpa using hlen

theorem numberLength_decimalReplacement (v : Nat) :
    numberLength (decimalReplacement v) = (decimalReplacement v).length :=
  numberLength_all_xdigit _
    (natDigitsStr_all_xdigit 10 v (by norm_num) (by norm_num))

theorem numberLength_hexReplacement (v : Nat) :
    numberLength (hexReplacement v) = (hexReplacement v).length := by
  have hne : natDigitsStr 16 v ≠ [] := natDigitsStr_ne_nil 16 v
  have hgl : (hexReplacement v).getLast? = (natDigitsStr 16 v).getLast? := by
    show (['0', 'x'] ++ natDigitsStr 16 v).getLast? = _
    exact List.getLast?_append_of_ne_nil _ hne
  have hglv : (natDigitsStr 16 v).getLast? =
      some ((natDigitsStr 16 v).getLast hne) :=
    List.getLast?_eq_getLast _ hne
  apply numberLength_of_getLast _ ((natDigitsStr 16 v).getLast hne)
  · rw [hgl]; exact hglv
  · exact natDigitsStr_all_xdigit 16 v (by norm_num) (by norm_num) _
      (List.getLast_mem hne)

/-- C5: converting the decimal literal of value v to hexadecimal via the
numeric-literal conversion, then converting that hexadecimal literal back
to decimal, yields a literal whose numeric value is again v, for every
v in [0, 2^63). -/
theorem numericRoundTrip_claim :
    ∀ v : Nat, v < 2 ^ 63 →
      ∃ hexOp decOp : ConvertNumericLiteralOp,
        hexOp ∈ ConvertNumericLiteral.doMatch
          [CNode.numericLit ⟨true, false, false, false,
            decimalReplacement v⟩] 0 ∧
        hexOp.kind = ConvKind.toHex ∧
        hexOp.replacement = hexReplacement v ∧
        decOp ∈ ConvertNumericLiteral.doMatch
          [CNode.numericLit ⟨true, false, false, true,
            hexOp.replacement⟩] 0 ∧
        decOp.kind = ConvKind.toDecimal ∧
        toULongBase0 decOp.replacement = some v := by
  intro v hv
  have hv64 : v < ulongSize := by
    have h63 : (2:Nat) ^ 63 < 2 ^ 64 := by norm_num
    unfold ulongSize
    omega
  -- first conversion: decimal spelling to hexadecimal
  have hnl1 := numberLength_decimalReplacement v
  have hlen1 : 1 ≤ numberLength (decimalReplacement v) := by
    rw [hnl1]
    have hne := natDigitsStr_ne_nil 10 v
    have hpos : 0 < (decimalReplacement v).length := by
      simpa [decimalReplacement] using List.length_pos.mpr hne
    omega
  have hval1 : literalValue
      ((decimalReplacement v).take (numberLength (decimalReplacement v)))
        = some v := by
    rw [hnl1, List.take_length]
    exact literalValue_decimalReplacement v hv64
  have heq1 := convertNumeric_eq
    [CNode.numericLit ⟨true, false, false, false, decimalReplacement v⟩] 0
    ⟨true, false, false, false, decimalReplacement v⟩ v
    rfl rfl rfl rfl hlen1 hval1
  refine ⟨⟨0, 0, 0 + numberLength (decimalReplacement v),
    hexReplacement v, ConvKind.toHex⟩, ?_⟩
  have hmem1 : (⟨0, 0, 0 + numberLength (decimalReplacement v),
      hexReplacement v, ConvKind.toHex⟩ : ConvertNumericLiteralOp) ∈
      ConvertNumericLiteral.doMatch
        [CNode.numericLit ⟨true, false, false, false,
          decimalReplacement v⟩] 0 := by
    rw [heq1]
    simp
  -- second conversion: the hexadecimal spelling back to decimal
  have hnl2 := numberLength_hexReplacement v
  have hlen2 : 1 ≤ numberLength (hexReplacement v) := by
    rw [hnl2]
    simp [hexReplacement]
  have hval2 : literalValue
      ((hexReplacement v).take (numberLength (hexReplacement v)))
        = some v := by
    rw [hnl2, List.take_length]
    exact literalValue_hexReplacement v hv64
  have heq2 := convertNumeric_eq
    [CNode.numericLit ⟨true, false, false, true, hexReplacement v⟩] 0
    ⟨true, false, false, true, hexReplacement v⟩ v
    rfl rfl rfl rfl hlen2 hval2
  refine ⟨⟨0, 0, 0 + numberLength (hexReplacement v),
    decimalReplacement v, ConvKind.toDecimal⟩, hmem1, rfl, rfl, ?_, rfl, ?_⟩
  · rw [heq2]
    simp
  · show toULongBase0 (natDigitsStr 10 v) = some v
    exact toULongBase0_decimal v hv64

/-- Witness for C5: the round trip evaluated at v = 12345. -/
theorem numericRoundTrip_claim_witness :
    ∃ hexOp decOp : ConvertNumericLiteralOp,
      hexOp ∈ ConvertNumericLiteral.doMatch
        [CNode.numericLit ⟨true, false, false, false,
          decimalReplacement 12345⟩] 0 ∧
      hexOp.kind = ConvKind.toHex ∧
      hexOp.replacement = hexReplacement 12345 ∧
      decOp ∈ ConvertNumericLiteral.doMatch
        [CNode.numericLit ⟨true, false, false, true,
          hexOp.replacement⟩] 0 ∧
      decOp.kind = ConvKind.toDecimal ∧
      toULongBase0 decOp.replacement = some 12345 :=
  numericRoundTrip_claim 12345 (by norm_num)

/-! ## Claim C3 -/

theorem candidateLoop_some_qual :
    ∀ (l : List LocalUse) (kd : List (String × String)) (rp : List String)
      (es ee : Nat) (r : String) (decls : List (String × String)),
      (∃ lu ∈ l, qualifiesAsReturn es ee lu = true) →
      candidateLoop kd rp es ee (some r) decls l = none := by
  intro l
  induction l with
  | nil => intro kd rp es ee r decls h; simp at h
  | cons lu rest ih =>
    intro kd rp es ee r decls h
    rw [candidateLoop]
    split
    · rfl
    · rename_i decls1 hstep
      by_cases hq : qualifiesAsReturn es ee lu = true
      · rw [if_pos hq]
      · rw [if_neg hq]
        apply ih
        rcases h with ⟨lu', hlu', hqlu'⟩
        rcases List.mem_cons.mp hlu' with rfl | hmem
        · exact absurd hqlu' hq
        · exact ⟨lu', hmem, hqlu'⟩

theorem candidateLoop_two_qual :
    ∀ (l : List LocalUse) (kd : List (String × String)) (rp : List String)
      (es ee : Nat) (fr : Option String) (decls : List (String × String)),
      2 ≤ l.countP (qualifiesAsReturn es ee) →
      candidateLoop kd rp es ee fr decls l = none := by
  intro l
  induction l with
  | nil => intro kd rp es ee fr decls h; simp at h
  | cons lu rest ih =>
    intro kd rp es ee fr decls h
    rw [List.countP_cons] at h
    rw [candidateLoop]
    split
    · rfl
    · rename_i decls1 hstep
      by_cases hq : qualifiesAsReturn es ee lu = true
      · rw [if_pos hq]
        have hrest : 0 < rest.countP (qualifiesAsReturn es ee) := by
          rw [hq] at h
          rw [if_pos rfl] at h
          omega
        have hex : ∃ lu' ∈ rest, qualifiesAsReturn es ee lu' = true :=
          List.countP_pos_iff.mp hrest
        cases fr with
        | none =>
          cases hlk : lookupDecl kd lu.name with
          | none => rfl
          | some d => exact candidateLoop_some_qual rest kd rp es ee lu.name _ hex
        | some r => rfl
      · rw [if_neg hq]
        apply ih
        have hqf : qualifiesAsReturn es ee lu = false := by
          cases hqv : qualifiesAsReturn es ee lu
          · rfl
          · exact absurd hqv hq
        rw [hqf] at h
        rw [if_neg (by simp)] at h
        omega

/-- analyserEnter descends (the accept call) with a nonzero extraction
start when entering a statement that begins inside the selection at a
nonzero offset. -/
theorem analyserEnter_descend (selS selE a b : Nat) (st : AnalyserState)
    (hdone : st.done = false) (hsa : selS ≤ a) (hae : a < selE) (ha0 : a ≠ 0)
    (hnb : ¬(st.extractionStart ≠ 0 ∧ b > selE)) :
    ∃ st2, analyserEnter selS selE a b st = (st2, true) ∧
      st2.extractionStart ≠ 0 := by
  have hguard : ¬(a ≥ selE ∨ (st.extractionStart ≠ 0 ∧ b > selE)) := by
    rintro (hc | hc)
    · omega
    · exact hnb hc
  unfold analyserEnter
  rw [if_neg (by simp [hdone]), if_neg hguard]
  dsimp only
  refine ⟨_, rfl, ?_⟩
  by_cases h1 : a ≥ selS ∧ st.extractionStart = 0
  · rw [if_pos h1]
    by_cases h2 : b > ({ st with extractionStart := a } : AnalyserState).extractionEnd
        ∧ ({ st with extractionStart := a } : AnalyserState).extractionStart ≠ 0
    · rw [if_pos h2]
      simpa using ha0
    · rw [if_neg h2]
      simpa using ha0
  · rw [if_neg h1]
    have hne : st.extractionStart ≠ 0 := fun hc => h1 ⟨hsa, hc⟩
    by_cases h2 : b > st.extractionEnd ∧ st.extractionStart ≠ 0
    · rw [if_pos h2]
      simpa using hne
    · rw [if_neg h2]
      exact hne

/-- C3: ExtractFunction::doMatch declines silently (no operation) when the
analyser fails — in particular, visiting a return statement after the
extraction has started marks the analysis failed and done — and when more
than one local variable qualifies as a return value; concretely, a
selection covering a bare return statement yields no operation. -/
theorem extractFunction_claim :
    (∀ ctx : ExtractFunctionInterface,
       (analyserRun (min ctx.selectionStart ctx.selectionEnd)
         (max ctx.selectionStart ctx.selectionEnd)
         (ctx.functionBody.getD [])).2 = false →
       ExtractFunction.doMatch ctx = [])
    ∧ (∀ (st : AnalyserState) (selS selE a b : Nat),
       st.done = false → selS ≤ a → a < selE → a ≠ 0 →
       ¬(st.extractionStart ≠ 0 ∧ b > selE) →
       (analyserStatement selS selE st (Stmt.retS a b)).failed = true ∧
       (analyserStatement selS selE st (Stmt.retS a b)).done = true)
    ∧ (∀ ctx : ExtractFunctionInterface,
       2 ≤ ctx.localUses.countP
         (qualifiesAsReturn (analyserStateOf ctx).extractionStart
           (analyserStateOf ctx).extractionEnd) →
       ExtractFunction.doMatch ctx = [])
    ∧ ExtractFunction.doMatch ⟨true, 16, 23, true,
        some [Stmt.exprS 10 15, Stmt.retS 16 23, Stmt.exprS 24 30],
        true, false, [], []⟩ = [] := by
  refine ⟨?_, ?_, ?_, ?_⟩
  · intro ctx h
    unfold ExtractFunction.doMatch
    split
    · rfl
    · split
      · rfl
      · split
        · rfl
        · rename_i children hfb
          split
          · rfl
          · split
            · rfl
            · split
              · rfl
              · rw [hfb] at h
                simp only [Option.getD_some] at h
                rw [if_pos (by simp [h])]
  · intro st selS selE a b hdone hsa hae ha0 hnb
    obtain ⟨st2, henter, hne⟩ :=
      analyserEnter_descend selS selE a b st hdone hsa hae ha0 hnb
    rw [analyserStatement]
    dsimp only [Stmt.startOf, Stmt.endOf]
    rw [henter]
    dsimp only
    constructor <;> simp [analyserVisit, hne]
  · intro ctx h
    unfold ExtractFunction.doMatch
    split
    · rfl
    · split
      · rfl
      · split
        · rfl
        · rename_i children hfb
          split
          · rfl
          · split
            · rfl
            · split
              · rfl
              · dsimp only
                split
                · rfl
                · have hst : analyserStateOf ctx =
                      (analyserRun (min ctx.selectionStart ctx.selectionEnd)
                        (max ctx.selectionStart ctx.selectionEnd)
                        children).1 := by
                    unfold analyserStateOf
                    rw [hfb]
                    rfl
                  rw [hst] at h
                  rw [candidateLoop_two_qual _ _ _ _ _ _ _ h]
  · simp [ExtractFunction.doMatch, analyserRun, analyserVisitList,
      analyserStatement, analyserVisit, analyserEnter, Stmt.startOf,
      Stmt.endOf, candidateLoop, analyserStateOf]

/-- Witness for C3: the multiple-return-candidates part applied to a
context where locals x and y are both used inside and after the selection
but not before it. -/
theorem extractFunction_claim_witness :
    (2 ≤ (([⟨"x", [18, 40]⟩, ⟨"y", [20, 45]⟩] : List LocalUse).countP
      (qualifiesAsReturn
        (analyserStateOf ⟨true, 16, 30, true,
          some [Stmt.declS 10 15 [("x", "int x"), ("y", "int y")],
            Stmt.exprS 16 23, Stmt.exprS 24 30],
          true, false, [], [⟨"x", [18, 40]⟩, ⟨"y", [20, 45]⟩]⟩).extractionStart
        (analyserStateOf ⟨true, 16, 30, true,
          some [Stmt.declS 10 15 [("x", "int x"), ("y", "int y")],
            Stmt.exprS 16 23, Stmt.exprS 24 30],
          true, false, [], [⟨"x", [18, 40]⟩, ⟨"y", [20, 45]⟩]⟩).extractionEnd)))
    ∧ ExtractFunction.doMatch ⟨true, 16, 30, true,
        some [Stmt.declS 10 15 [("x", "int x"), ("y", "int y")],
          Stmt.exprS 16 23, Stmt.exprS 24 30],
        true, false, [], [⟨"x", [18, 40]⟩, ⟨"y", [20, 45]⟩]⟩ = [] := by
  have hc : 2 ≤ (([⟨"x", [18, 40]⟩, ⟨"y", [20, 45]⟩] : List LocalUse).countP
      (qualifiesAsReturn
        (analyserStateOf ⟨true, 16, 30, true,
          some [Stmt.declS 10 15 [("x", "int x"), ("y", "int y")],
            Stmt.exprS 16 23, Stmt.exprS 24 30],
          true, false, [], [⟨"x", [18, 40]⟩, ⟨"y", [20, 45]⟩]⟩).extractionStart
        (analyserStateOf ⟨true, 16, 30, true,
          some [Stmt.declS 10 15 [("x", "int x"), ("y", "int y")],
            Stmt.exprS 16 23, Stmt.exprS 24 30],
          true, false, [], [⟨"x", [18, 40]⟩, ⟨"y", [20, 45]⟩]⟩).extractionEnd)) := by
    simp [analyserStateOf, analyserRun, analyserVisitList, analyserStatement,
      analyserVisit, analyserEnter, Stmt.startOf, Stmt.endOf,
      qualifiesAsReturn, usedBeforeB, usedAfterB, usedInsideB]
  exact ⟨hc, extractFunction_claim.2.2.1 _ hc⟩

/-! ## Claim C7 -/

theorem mem_ite_singleton {α : Type} {c : Prop} [Decidable c] {a x : α}
    (h : x ∈ (if c then [a] else [])) : x = a := by
  split at h
  · simpa using h
  · simp at h

theorem enumIdx_mem :
    ∀ (l : List CNode) (i j : Nat) (n : CNode),
      (j, n) ∈ enumIdx i l → i ≤ j ∧ l[j - i]? = some n := by
  intro l
  induction l with
  | nil => intro i j n h; simp [enumIdx] at h
  | cons x rest ih =>
    intro i j n h
    rw [enumIdx] at h
    rcases List.mem_cons.mp h with heq | hmem
    · simp only [Prod.mk.injEq] at heq
      obtain ⟨rfl, rfl⟩ := heq
      simp
    · obtain ⟨hle, hget⟩ := ih (i + 1) j n hmem
      refine ⟨by omega, ?_⟩
      have hji : j - i = (j - (i + 1)) + 1 := by omega
      rw [hji]
      simpa using hget

theorem splitDeclLoop_mem :
    ∀ (l : List (Nat × CNode)) (cc : Option Bool)
      (op : SplitSimpleDeclarationOp),
      op ∈ splitDeclLoop cc l →
      ∃ d, (op.priority, CNode.simpleDecl d) ∈ l ∧
        checkDeclarationForSplit d = true := by
  intro l
  induction l with
  | nil => intro cc op h; simp [splitDeclLoop] at h
  | cons p rest ih =>
    intro cc op h
    obtain ⟨idx, n⟩ := p
    cases n
    case coreDecl cursorOn =>
      rw [splitDeclLoop] at h
      obtain ⟨d, hmem, hchk⟩ := ih (some cursorOn) op h
      exact ⟨d, List.mem_cons_of_mem _ hmem, hchk⟩
    case simpleDecl d =>
      rw [splitDeclLoop] at h
      split at h
      · rename_i hchk
        split at h
        · have hop : op = ⟨idx⟩ := by simpa using h
          subst hop
          exact ⟨d, List.mem_cons_self _ _, hchk⟩
        · split at h
          · have hop : op = ⟨idx⟩ := by simpa using h
            subst hop
            exact ⟨d, List.mem_cons_self _ _, hchk⟩
          · simp at h
      · simp at h
    all_goals {
      simp only [splitDeclLoop] at h
      obtain ⟨d, hmem, hchk⟩ := ih cc op h
      exact ⟨d, List.mem_cons_of_mem _ hmem, hchk⟩
    }

theorem completeSwitchLoop_mem :
    ∀ (l : List (Nat × CNode)) (op : CompleteSwitchCaseStatementOp),
      op ∈ completeSwitchLoop l →
      ∃ d, (op.priority, CNode.switchStmt d) ∈ l := by
  intro l
  induction l with
  | nil => intro op h; simp [completeSwitchLoop] at h
  | cons p rest ih =>
    intro op h
    obtain ⟨depth, n⟩ := p
    cases n
    case switchStmt d =>
      rw [completeSwitchLoop] at h
      refine ⟨d, ?_⟩
      split at h
      · simp at h
      · split at h
        · simp at h
        · split at h
          · simp at h
          · split at h
            · dsimp only at h
              split at h
              · simp at h
              · have hop := List.mem_singleton.mp h
                subst hop
                exact List.mem_cons_self _ _
            · simp at h
    all_goals {
      simp only [completeSwitchLoop] at h
      obtain ⟨d, hmem⟩ := ih op h
      exact ⟨d, List.mem_cons_of_mem _ hmem⟩
    }

theorem convertNumeric_op_fields :
    ∀ (path : List CNode) (litStart : Nat) (op : ConvertNumericLiteralOp),
      op ∈ ConvertNumericLiteral.doMatch path litStart →
      ∃ tok v, path.getLast? = some (CNode.numericLit tok) ∧
        op.priority = path.length - 1 ∧ op.start = litStart ∧
        op.stop = litStart + numberLength tok.spell ∧
        literalValue (tok.spell.take (numberLength tok.spell)) = some v ∧
        1 ≤ numberLength tok.spell := by
  intro path litStart op h
  unfold ConvertNumericLiteral.doMatch at h
  cases hlast : path.getLast? with
  | none => rw [hlast] at h; simp at h
  | some node =>
    rw [hlast] at h
    dsimp only at h
    split at h
    case h_2 => simp at h
    case h_1 _ tok =>
      split at h
      · simp at h
      · split at h
        · simp at h
        · split at h
          · simp at h
          · rename_i hnum hdf hlen
            split at h
            · simp at h
            · rename_i v hval
              refine ⟨tok, v, rfl, ?_⟩
              have hfields : op.priority = path.length - 1 ∧
                  op.start = litStart ∧
                  op.stop = litStart + numberLength tok.spell := by
                rcases List.mem_append.mp h with h1 | h1
                · rcases List.mem_append.mp h1 with h2 | h2
                  · rcases List.mem_append.mp h2 with h3 | h3
                    · have := mem_ite_singleton h3; subst this
                      exact ⟨rfl, rfl, rfl⟩
                    · have := mem_ite_singleton h3; subst this
                      exact ⟨rfl, rfl, rfl⟩
                  · have := mem_ite_singleton h2; subst this
                    exact ⟨rfl, rfl, rfl⟩
                · have := mem_ite_singleton h1; subst this
                  exact ⟨rfl, rfl, rfl⟩
              exact ⟨hfields.1, hfields.2.1, hfields.2.2, hval, by omega⟩

/-- C7: each rule's emitted operation carries as priority the index of its
matched node in the ancestor path (the simple declaration, the binary
expression under the cursor, the switch statement), while
ConvertNumericLiteral overrides the priority with path.size() - 1, the
maximal index, so its operations always rank at least as high as any
operation the other rules emit for the same path. -/
theorem operationPriority_claim :
    (∀ (path : List CNode) (op : SplitSimpleDeclarationOp),
       op ∈ SplitSimpleDeclaration.doMatch path →
       ∃ d, path[op.priority]? = some (CNode.simpleDecl d))
    ∧ (∀ (path : List CNode) (op : SplitIfStatementOp),
       op ∈ SplitIfStatement.doMatch path →
       ∃ k, path[op.priority]? = some (CNode.binExpr k true))
    ∧ (∀ (path : List CNode) (op : CompleteSwitchCaseStatementOp),
       op ∈ CompleteSwitchCaseStatement.doMatch path →
       ∃ d, path[op.priority]? = some (CNode.switchStmt d))
    ∧ (∀ (path : List CNode) (litStart : Nat) (op : ConvertNumericLiteralOp),
       op ∈ ConvertNumericLiteral.doMatch path litStart →
       op.priority = path.length - 1)
    ∧ (∀ (path : List CNode) (litStart : Nat) (op : ConvertNumericLiteralOp)
         (op1 : SplitSimpleDeclarationOp) (op2 : SplitIfStatementOp)
         (op3 : CompleteSwitchCaseStatementOp),
       op ∈ ConvertNumericLiteral.doMatch path litStart →
       (op1 ∈ SplitSimpleDeclaration.doMatch path →
         op1.priority ≤ op.priority)
       ∧ (op2 ∈ SplitIfStatement.doMatch path → op2.priority ≤ op.priority)
       ∧ (op3 ∈ CompleteSwitchCaseStatement.doMatch path →
           op3.priority ≤ op.priority)) := by
  have p1 : ∀ (path : List CNode) (op : SplitSimpleDeclarationOp),
      op ∈ SplitSimpleDeclaration.doMatch path →
      ∃ d, path[op.priority]? = some (CNode.simpleDecl d) := by
    intro path op h
    unfold SplitSimpleDeclaration.doMatch at h
    obtain ⟨d, hmem, _⟩ := splitDeclLoop_mem _ _ _ h
    rw [List.mem_reverse] at hmem
    obtain ⟨_, hget⟩ := enumIdx_mem path 0 op.priority _ hmem
    exact ⟨d, by simpa using hget⟩
  have p2 : ∀ (path : List CNode) (op : SplitIfStatementOp),
      op ∈ SplitIfStatement.doMatch path →
      ∃ k, path[op.priority]? = some (CNode.binExpr k true) := by
    intro path op h
    unfold SplitIfStatement.doMatch at h
    cases hif : lastIfIndex path with
    | none => rw [hif] at h; simp at h
    | some t =>
      obtain ⟨i, hs, he⟩ := t
      rw [hif] at h
      dsimp only at h
      cases hs with
      | false => simp at h
      | true =>
        rw [if_pos rfl] at h
        obtain ⟨m, k, hm, hpr, _, _, _, hcur⟩ := splitIfLoop_mem _ _ _ _ _ h
        rw [List.getElem?_drop] at hcur
        rw [hpr]
        exact ⟨k, hcur⟩
  have p3 : ∀ (path : List CNode) (op : CompleteSwitchCaseStatementOp),
      op ∈ CompleteSwitchCaseStatement.doMatch path →
      ∃ d, path[op.priority]? = some (CNode.switchStmt d) := by
    intro path op h
    unfold CompleteSwitchCaseStatement.doMatch at h
    obtain ⟨d, hmem⟩ := completeSwitchLoop_mem _ _ h
    rw [List.mem_reverse] at hmem
    obtain ⟨_, hget⟩ := enumIdx_mem path 0 op.priority _ hmem
    exact ⟨d, by simpa using hget⟩
  have p4 : ∀ (path : List CNode) (litStart : Nat)
      (op : ConvertNumericLiteralOp),
      op ∈ ConvertNumericLiteral.doMatch path litStart →
      op.priority = path.length - 1 := by
    intro path litStart op h
    obtain ⟨tok, v, _, hpr, _⟩ := convertNumeric_op_fields path litStart op h
    exact hpr
  refine ⟨p1, p2, p3, p4, ?_⟩
  intro path litStart op op1 op2 op3 h
  have hpr := p4 path litStart op h
  refine ⟨?_, ?_, ?_⟩
  · intro h1
    obtain ⟨d, hget⟩ := p1 path op1 h1
    have hlt : op1.priority < path.length := by
      rcases List.getElem?_eq_some.mp hget with ⟨hh, _⟩
      exact hh
    omega
  · intro h2
    obtain ⟨k, hget⟩ := p2 path op2 h2
    have hlt : op2.priority < path.length := by
      rcases List.getElem?_eq_some.mp hget with ⟨hh, _⟩
      exact hh
    omega
  · intro h3
    obtain ⟨d, hget⟩ := p3 path op3 h3
    have hlt : op3.priority < path.length := by
      rcases List.getElem?_eq_some.mp hget with ⟨hh, _⟩
      exact hh
    omega

/-- Witness for C7: the ConvertNumericLiteral priority part applied to a
two-node path. -/
theorem operationPriority_claim_witness :
    (⟨1, 5, 7, hexReplacement 32, ConvKind.toHex⟩ : ConvertNumericLiteralOp)
        ∈ ConvertNumericLiteral.doMatch
          [CNode.other, CNode.numericLit ⟨true, false, false, false,
            ['3', '2']⟩] 5 ∧
    (⟨1, 5, 7, hexReplacement 32, ConvKind.toHex⟩ :
        ConvertNumericLiteralOp).priority =
      [CNode.other, CNode.numericLit ⟨true, false, false, false,
        ['3', '2']⟩].length - 1 :=
  ⟨by decide, operationPriority_claim.2.2.2.1 _ 5 _ (by decide)⟩

/-! ## Claim C8 -/

theorem splitDeclLoop_first_simpleDecl :
    ∀ (pre : List (Nat × CNode)),
      (∀ p ∈ pre, ∀ dd, p.2 ≠ CNode.simpleDecl dd) →
    ∀ (cc : Option Bool) (idx : Nat) (d : SimpleDeclData)
      (rest : List (Nat × CNode)),
      checkDeclarationForSplit d = false →
      splitDeclLoop cc (pre ++ (idx, CNode.simpleDecl d) :: rest) = [] := by
  intro pre
  induction pre with
  | nil =>
    intro _ cc idx d rest hchk
    rw [List.nil_append, splitDeclLoop]
    rw [if_neg (by simp [hchk])]
  | cons p pre ih =>
    intro hpre cc idx d rest hchk
    obtain ⟨i, n⟩ := p
    rw [List.cons_append]
    have hrec := fun cc => ih
      (fun q hq => hpre q (List.mem_cons_of_mem _ hq)) cc idx d rest hchk
    cases n
    case simpleDecl dd =>
      exact absurd rfl (hpre (i, CNode.simpleDecl dd) (List.mem_cons_self _ _) dd)
    case coreDecl cursorOn =>
      rw [splitDeclLoop]
      exact hrec (some cursorOn)
    all_goals {
      simp only [splitDeclLoop]
      exact hrec cc
    }

/-- C8: a rule whose structural preconditions are unmet returns zero
operations instead of failing: a declaration with no semicolon token, fewer
than two declarators, or an inline enum/class specifier fails
checkDeclarationForSplit, and a path whose innermost simple declaration
fails that check produces no SplitSimpleDeclaration operation; a function
with an ellipsis parameter (or no postfix declarator list) produces no
ExtractLiteralAsParameter operation. -/
theorem structuralDecline_claim :
    (∀ d : SimpleDeclData, d.hasSemicolon = false →
      checkDeclarationForSplit d = false)
    ∧ (∀ d : SimpleDeclData, d.declaratorCount < 2 →
      checkDeclarationForSplit d = false)
    ∧ (∀ d : SimpleDeclData,
      (Specifier.enumSpec ∈ d.specifiers ∨ Specifier.classSpec ∈ d.specifiers) →
      checkDeclarationForSplit d = false)
    ∧ (∀ (path : List CNode) (pre rest : List (Nat × CNode)) (idx : Nat)
        (d : SimpleDeclData),
      (enumIdx 0 path).reverse = pre ++ (idx, CNode.simpleDecl d) :: rest →
      (∀ p ∈ pre, ∀ dd, p.2 ≠ CNode.simpleDecl dd) →
      checkDeclarationForSplit d = false →
      SplitSimpleDeclaration.doMatch path = [])
    ∧ (∀ (path : List CNode) (f : FuncDefData),
      findEnclosingFunction ((enumIdx 0 path).reverse.drop 1) = some f →
      (f.hasPostfixDeclaratorList = false ∨
        (f.firstPostfixIsFunctionDeclarator = true ∧ f.hasEllipsis = true)) →
      ExtractLiteralAsParameter.doMatch path = []) := by
  refine ⟨?_, ?_, ?_, ?_, ?_⟩
  · intro d h
    simp [checkDeclarationForSplit, h]
  · intro d h
    have hdec : decide (2 ≤ d.declaratorCount) = false :=
      decide_eq_false (by omega)
    simp [checkDeclarationForSplit, hdec]
  · intro d h
    have hall : (d.specifiers.all fun s =>
        match s with
        | .enumSpec => false
        | .classSpec => false
        | .otherSpec => true) = false := by
      rw [List.all_eq_false]
      rcases h with h | h
      · exact ⟨_, h, by simp⟩
      · exact ⟨_, h, by simp⟩
    simp [checkDeclarationForSplit, hall]
  · intro path pre rest idx d henum hpre hchk
    unfold SplitSimpleDeclaration.doMatch
    rw [henum]
    exact splitDeclLoop_first_simpleDecl pre hpre none idx d rest hchk
  · intro path f hfind hbad
    unfold ExtractLiteralAsParameter.doMatch
    split
    · rfl
    · split
      · rfl
      · split
        · rfl
        · rw [hfind]
          dsimp only
          rcases hbad with h1 | ⟨h1, h2⟩
          · rw [if_pos (by simp [h1])]
          · by_cases hpd : f.hasPostfixDeclaratorList = true
            · rw [if_neg (by simp [hpd]), if_pos (by simp [h1, h2])]
            · rw [if_pos (by simpa using hpd)]

/-- Witness for C8: the ellipsis part applied to a concrete path. -/
theorem structuralDecline_claim_witness :
    ExtractLiteralAsParameter.doMatch
      [CNode.funcDef ⟨true, true, true⟩,
       CNode.numericLit ⟨true, false, false, false, ['1']⟩] = [] :=
  structuralDecline_claim.2.2.2.2
    [CNode.funcDef ⟨true, true, true⟩,
     CNode.numericLit ⟨true, false, false, false, ['1']⟩]
    ⟨true, true, true⟩ (by decide) (Or.inr ⟨rfl, rfl⟩)

/-! ## Claim C9 -/

theorem hasOverlap_of_split :
    ∀ (pre mid post : List EditOp) (x y : EditOp),
      pairOverlap x y = true →
      hasOverlap (pre ++ x :: mid ++ y :: post) = true := by
  intro pre
  induction pre with
  | nil =>
    intro mid post x y h
    have he : ([] : List EditOp) ++ x :: mid ++ y :: post
        = x :: (mid ++ y :: post) := by simp
    rw [he, hasOverlap]
    have hany : (mid ++ y :: post).any (pairOverlap x) = true := by
      rw [List.any_eq_true]
      exact ⟨y, by simp, h⟩
    simp [hany]
  | cons e pre ih =>
    intro mid post x y h
    have he : (e :: pre) ++ x :: mid ++ y :: post
        = e :: (pre ++ x :: mid ++ y :: post) := by simp
    rw [he, hasOverlap, ih mid post x y h]
    simp

/-- C9 (modelled from the spec; the ChangeSet implementation is not part of
this snapshot): ChangeSet::apply is atomic with respect to overlap
conflicts: whenever two primitive edits of the set have intersecting source
ranges, apply fails and returns the buffer completely unchanged, the check
happening before any mutation; and when no overlap exists, apply
succeeds. -/
theorem changeSetOverlap_claim :
    (∀ (pre mid post : List EditOp) (x y : EditOp) (buf : List Char),
      pairOverlap x y = true →
      ChangeSet.apply (pre ++ x :: mid ++ y :: post) buf = (false, buf))
    ∧ (∀ (edits : List EditOp) (buf : List Char),
      hasOverlap edits = false → (ChangeSet.apply edits buf).1 = true) := by
  constructor
  · intro pre mid post x y buf h
    unfold ChangeSet.apply
    rw [if_pos (hasOverlap_of_split pre mid post x y h)]
  · intro edits buf h
    unfold ChangeSet.apply
    rw [if_neg (by simp [h])]

/-- Witness for C9: two overlapping replaces on "hello" are rejected with
the buffer untouched. -/
theorem changeSetOverlap_claim_witness :
    ChangeSet.apply
      [EditOp.replace 1 3 ['a', 'b'], EditOp.replace 2 5 ['c']]
      ['h', 'e', 'l', 'l', 'o']
      = (false, ['h', 'e', 'l', 'l', 'o']) :=
  changeSetOverlap_claim.1 [] [] []
    (EditOp.replace 1 3 ['a', 'b']) (EditOp.replace 2 5 ['c'])
    ['h', 'e', 'l', 'l', 'o'] (by decide)

/-! ## Claim C10 -/

/-- C10: every operation ConvertNumericLiteral emits replaces exactly the
character range [litStart, litStart + numberLength) of the literal's
digits; performing it (a single ChangeSet replace) leaves the literal's
trailing type-suffix characters and everything outside the literal
untouched. -/
theorem convertNumericFrame_claim :
    ∀ (path : List CNode) (litStart : Nat) (op : ConvertNumericLiteralOp)
      (tok : TokenData) (pre post : List Char),
      op ∈ ConvertNumericLiteral.doMatch path litStart →
      path.getLast? = some (CNode.numericLit tok) →
      pre.length = litStart →
      op.start = litStart ∧
      op.stop = litStart + numberLength tok.spell ∧
      numberLength tok.spell ≤ tok.spell.length ∧
      ChangeSet.apply [EditOp.replace op.start op.stop op.replacement]
        (pre ++ tok.spell ++ post)
        = (true, pre ++ op.replacement
            ++ (tok.spell.drop (numberLength tok.spell) ++ post)) := by
  intro path litStart op tok pre post hmem hlast hpre
  obtain ⟨tok2, v, hlast2, hpr, hstart, hstop, hval, hlen⟩ :=
    convertNumeric_op_fields path litStart op hmem
  rw [hlast] at hlast2
  injection hlast2 with hlast2
  injection hlast2 with hlast2
  subst hlast2
  have hnl : numberLength tok.spell ≤ tok.spell.length :=
    numberLength_le_length tok.spell
  refine ⟨hstart, hstop, hnl, ?_⟩
  unfold ChangeSet.apply
  rw [if_neg (by simp [hasOverlap])]
  dsimp only [List.foldr, EditOp.toReplacements, sortByStartDesc,
    insertByStart, List.foldl, applyOne]
  congr 1
  rw [hstart, hstop]
  have hbuf : pre ++ tok.spell ++ post = pre ++ (tok.spell ++ post) := by
    rw [List.append_assoc]
  rw [hbuf]
  rw [List.take_left' hpre]
  rw [← hpre, List.drop_append]
  rw [List.drop_append_of_le_length hnl]

/-- Witness for C10: the hexadecimal conversion of the literal `32u` inside
the buffer "x = 32u;", showing the suffix `u` and the surrounding text
survive. -/
theorem convertNumericFrame_claim_witness :
    ∃ op : ConvertNumericLiteralOp,
      op ∈ ConvertNumericLiteral.doMatch
        [CNode.numericLit ⟨true, false, false, false,
          ['3', '2', 'u']⟩] 4 ∧
      op.start = 4 ∧
      op.stop = 4 + numberLength ['3', '2', 'u'] ∧
      numberLength ['3', '2', 'u'] ≤ (['3', '2', 'u'] : List Char).length ∧
      ChangeSet.apply [EditOp.replace op.start op.stop op.replacement]
        (['x', ' ', '=', ' '] ++ ['3', '2', 'u'] ++ [';'])
        = (true, ['x', ' ', '=', ' '] ++ op.replacement
            ++ ((['3', '2', 'u'] : List Char).drop
                  (numberLength ['3', '2', 'u']) ++ [';'])) := by
  refine ⟨⟨0, 4, 6, hexReplacement 32, ConvKind.toHex⟩, by decide, ?_⟩
  have h := convertNumericFrame_claim
    [CNode.numericLit ⟨true, false, false, false, ['3', '2', 'u']⟩] 4
    ⟨0, 4, 6, hexReplacement 32, ConvKind.toHex⟩
    ⟨true, false, false, false, ['3', '2', 'u']⟩
    ['x', ' ', '=', ' '] [';'] (by decide) rfl rfl
  exact ⟨h.1, h.2.1, h.2.2.1, h.2.2.2⟩

end QuickFix
